import Mathlib

/-!
# Struct-tag validation layer of the `yaml` package

A shallow embedding of `validator.go` and `validtors.go`: the rule grammar
parser (`parseTag`), the validator registry (`RegisterValidator`, `init`), the
three built-in validators and the field/node alignment engine
(`ValidateStruct`, `applyValidationRules`).

Conventions of the embedding.

* A Go call either returns or panics: `Go α` is `Except String α`, the string
  being the panic message. Only the fact of a panic matters below, so the
  messages are kept coarse.
* Go strings are Lean strings. The source only ever compares bytes with the
  ASCII separators `,` and `=`, the sign characters and the decimal digits,
  which never occur inside a multi-byte UTF-8 sequence, so working on code
  points is the same as working on bytes.
* `*Node` pointers are taken to be non-nil, as the document parser produces
  them.
* The process-wide `validators` map is passed explicitly (`Env.validators`).
* `fmt.Println` in `applyValidationRules` writes a notice to standard output
  and has no influence on the returned slice; the embedding returns the slice
  only.
-/

set_option autoImplicit false

namespace YamlValidate

/-! ## Definitions -/

/-! ### Go runtime -/

deriving instance DecidableEq for Except

/-- Result of a Go call: `Except.ok` for a normal return, `Except.error` for a panic. -/
abbrev Go (α : Type) : Type := Except String α

/-- Built-in `len` on a string: the number of bytes. -/
def goLen (s : String) : Nat := s.utf8ByteSize

/-- Pieces of a character sequence between the occurrences of `sep`, as
`strings.Split` cuts them for a one-byte separator: always at least one piece. -/
def splitChars (sep : Char) : List Char → List (List Char)
  | [] => [[]]
  | c :: cs =>
    if c = sep then [] :: splitChars sep cs
    else
      match splitChars sep cs with
      | [] => [[c]]
      | seg :: segs => (c :: seg) :: segs

/-- Model of `strings.Split(s, sep)` for a one-byte separator. -/
def stringsSplit (s : String) (sep : Char) : List String :=
  (splitChars sep s.data).map String.mk

/-- Cut at the first occurrence of `sep`: the text before it and, when `sep`
occurs, the text after it. -/
def cutChars (sep : Char) : List Char → List Char × Option (List Char)
  | [] => ([], none)
  | c :: cs =>
    if c = sep then ([], some cs)
    else ((c :: (cutChars sep cs).1), (cutChars sep cs).2)

/-- Model of `strings.SplitN(s, sep, 2)` for a one-byte separator. The Go
result is a slice of length one or two; it is represented by its first element
and its optional second element. -/
def stringsSplitN2 (s : String) (sep : Char) : String × Option String :=
  ((String.mk (cutChars sep s.data).1), (cutChars sep s.data).2.map String.mk)

/-- The two kinds of `*strconv.NumError` cause. -/
inductive NumErr where
  | ErrSyntax
  | ErrRange
  deriving DecidableEq, Repr

/-- Values of the Go `error` interface that occur in the result slice. -/
inductive GoError where
  /-- Modelled from the spec: the `CustomError` struct (declared outside the
  validation files) is the position-annotated validation error
  `{line, column, message}`. -/
  | CustomError (Line Column : Int) (Msg : String)
  /-- A `*strconv.NumError`, as returned by `strconv.Atoi`. -/
  | NumError (Func Num : String) (Err : NumErr)
  /-- Any other error value a registered validator may return. -/
  | other (msg : String)
  deriving DecidableEq, Repr

/-- Whether an error is the position-annotated `CustomError`. -/
def GoError.isCustomError : GoError → Bool
  | .CustomError _ _ _ => true
  | _ => false

/-- Decimal digit value of a character, if it is one of `0` to `9`. -/
def digitValue (c : Char) : Option Nat :=
  if 48 ≤ c.toNat ∧ c.toNat ≤ 57 then some (c.toNat - 48) else none

/-- Digit loop of `strconv.ParseUint(s, 10, 64)`: a non-digit is a syntax
error, a value that does not fit 64 bits a range error. -/
def parseUintLoop : List Char → Nat → Except NumErr Nat
  | [], n => .ok n
  | c :: cs, n =>
    match digitValue c with
    | none => .error .ErrSyntax
    | some d =>
      if n ≥ (2 ^ 64 - 1) / 10 + 1 then .error .ErrRange
      else if n * 10 + d ≥ 2 ^ 64 then .error .ErrRange
      else parseUintLoop cs (n * 10 + d)

/-- Sign handling and range check of `strconv.ParseInt(s, 10, 64)`. -/
def parseIntChars (cs : List Char) : Except NumErr Int :=
  match cs with
  | [] => .error .ErrSyntax
  | c :: rest =>
    let neg := decide (c = '-')
    let digits := if c = '+' ∨ c = '-' then rest else cs
    match digits with
    | [] => .error .ErrSyntax
    | _ =>
      match parseUintLoop digits 0 with
      | .error e => .error e
      | .ok un =>
        if ¬ neg ∧ un ≥ 2 ^ 63 then .error .ErrRange
        else if neg ∧ un > 2 ^ 63 then .error .ErrRange
        else .ok (if neg then - (un : Int) else (un : Int))

/-- Model of the standard library's `strconv.Atoi` on a platform whose `int`
has 64 bits: an optional sign followed by one or more decimal digits, the
value within the `int` range; otherwise a `*strconv.NumError`. -/
def Atoi (s : String) : Except GoError Int :=
  match parseIntChars s.data with
  | .ok n => .ok n
  | .error e => .error (.NumError "Atoi" s e)

/-- Rendering of an integer by the verb `%d` of `fmt.Sprintf`. -/
def fmtInt (n : Int) : String := toString n

/-! ### Document nodes -/

/-- Modelled from the spec: the `Kind` of a document node (declared outside the
validation files): mapping, sequence, scalar and the remaining kinds. -/
inductive NodeKind where
  | DocumentNode
  | SequenceNode
  | MappingNode
  | ScalarNode
  | AliasNode
  deriving DecidableEq, Repr

/-- Modelled from the spec: the `Node` struct (declared outside the validation
files), with the members the validation code reads: kind, source position,
scalar value and, for a mapping, the alternating key and value nodes. -/
structure Node where
  Kind : NodeKind
  Line : Int
  Column : Int
  Value : String
  Content : List Node

/-! ### Reflected values -/

/-- A `reflect.Type`, reduced to what the validation code can observe of it:
the text `Type.String()` returns. -/
structure GoType where
  Name : String
  deriving DecidableEq, Repr

/-- A `reflect.StructTag`, already split into its `key:"value"` pairs. -/
structure StructTag where
  pairs : List (String × String)

/-- Method `StructTag.Get`: the value of the first pair with this key, or the empty
string. -/
def StructTag.Get (tag : StructTag) (key : String) : String :=
  match tag.pairs.find? (fun p => p.1 = key) with
  | some p => p.2
  | none => ""

/-- A `reflect.StructField`: declared name, static type (`Type` in Go) and tag. -/
structure StructField where
  Name : String
  Typ : GoType
  Tag : StructTag

/-- A `reflect.Value`, one constructor per group of kinds that the validation
code tells apart, each holding what the code can read from it.

* `int`: kinds `Int`, `Int8`, `Int16`, `Int32`, `Int64`, with `Value.Int()`;
* `uint`: kinds `Uint` to `Uint64` and `Uintptr`, with `Value.Uint()`;
* `float`: kinds `Float32`, `Float64`, with the IEEE-754 binary64 bit pattern
  of `Value.Float()`;
* `complex`: kinds `Complex64`, `Complex128`, with the bit patterns of the real
  and imaginary parts;
* `array`: its length; `slice`, `map`: `none` when nil, else the length;
* `ptr`, `iface`, `chan`, `func`, `unsafePointer`: whether it is nil;
* `struct`: the fields in declaration order with their current values;
* `invalid`: the zero `reflect.Value`. -/
inductive Value where
  | invalid
  | bool (t : GoType) (b : Bool)
  | int (t : GoType) (i : Int)
  | uint (t : GoType) (u : Nat)
  | float (t : GoType) (bits : Nat)
  | complex (t : GoType) (re im : Nat)
  | str (t : GoType) (s : String)
  | array (t : GoType) (len : Nat)
  | slice (t : GoType) (len : Option Nat)
  | map (t : GoType) (len : Option Nat)
  | ptr (t : GoType) (isNil : Bool)
  | iface (t : GoType) (isNil : Bool)
  | chan (t : GoType) (isNil : Bool)
  | func (t : GoType) (isNil : Bool)
  | unsafePointer (t : GoType) (isNil : Bool)
  | struct (t : GoType) (fields : List (StructField × Value))

/-- Method `Value.Int()`: defined on the signed integer kinds, a panic on any other. -/
def Value.Int : Value → Go Int
  | .int _ i => .ok i
  | _ => .error "reflect: call of reflect.Value.Int on a Value of another kind"

/-- Method `Value.String()`: the string itself for kind `String`; for other kinds it
does not panic but returns a description of the type. -/
def Value.Str : Value → String
  | .str _ s => s
  | .invalid => "<invalid Value>"
  | .bool t _ | .int t _ | .uint t _ | .float t _ | .complex t _ _ | .array t _
  | .slice t _ | .map t _ | .ptr t _ | .iface t _ | .chan t _ | .func t _
  | .unsafePointer t _ | .struct t _ => "<" ++ t.Name ++ " Value>"

/-- Method `Value.FieldByName(name)`: the value of the directly declared field of that
name, the zero `Value` when the struct has none, a panic when the value is not
a struct. -/
def Value.FieldByName (v : Value) (name : String) : Go Value :=
  match v with
  | .struct _ fields =>
    match fields.find? (fun f => f.1.Name = name) with
    | some f => .ok f.2
    | none => .ok .invalid
  | _ => .error "reflect: call of reflect.Value.FieldByName on a non-struct Value"

/-- Comparison `value.Float() == 0` on the bit pattern: true exactly for
positive and negative zero. -/
def floatIsZero (bits : Nat) : Bool := bits % 2 ^ 63 = 0

/-! ### `validator.go` -/

/-- Type `validationRule`: a rule name and its parameters. The source stores
the parameters as `[]interface{}`; every element it stores is a string. -/
structure validationRule where
  name : String
  params : List String
  deriving DecidableEq, Repr

/-- Body of the loop of `parseTag`: the rule made from one comma-separated part. -/
def parsePart (part : String) : validationRule :=
  let ruleParts := stringsSplitN2 part '='
  let ruleName := ruleParts.1
  let params : List String :=
    match ruleParts.2 with
    | some p => [] ++ [p]
    | none => []
  { name := ruleName, params := params }

/-- Function `parseTag`. -/
def parseTag (tag : String) : List validationRule :=
  (stringsSplit tag ',').foldl (fun rules part => rules ++ [parsePart part]) []

/-- The `for ... range rules` loop of `tagContainsRequired`. -/
def tagContainsRequiredLoop : List validationRule → Bool
  | [] => false
  | rule :: rest => if rule.name = "required" then true else tagContainsRequiredLoop rest

/-- Function `tagContainsRequired`. -/
def tagContainsRequired (tag : String) : Bool :=
  tagContainsRequiredLoop (parseTag tag)

/-- Function `isEmpty`. -/
def isEmpty : Value → Bool
  | .str _ s => goLen s = 0
  | .array _ len => len = 0
  | .map _ none | .slice _ none => true
  | .map _ (some len) | .slice _ (some len) => len = 0
  | .bool _ b => !b
  | .int _ i => i = 0
  | .uint _ u => u = 0
  | .float _ bits => floatIsZero bits
  | .iface _ isNil | .ptr _ isNil => isNil
  | _ => false

/-- Type `Validator`. -/
abbrev Validator : Type := Value → String → Node → String → Go (Option GoError)

/-- The `validators` map: rule name to validator. -/
abbrev Registry : Type := String → Option Validator

/-- Function `RegisterValidator`: the assignment `validators[name] = validator`. -/
def RegisterValidator (validators : Registry) (name : String) (validator : Validator) :
    Registry :=
  fun k => if k = name then some validator else validators k

/-- What `ValidateStruct` reads besides its two arguments: the `validators`
map and the predicate `isYAMLValueType`. -/
structure Env where
  validators : Registry
  /-- Modelled from the spec: `isYAMLValueType` (declared outside the validation
  files) tells whether a field's static type is the boxed scalar wrapper that
  holds its payload in a member named `Value`. -/
  isYAMLValueType : GoType → Bool

/-- Lines 82 to 85 of `applyValidationRules`: the first parameter of a rule,
the empty string when it has none. -/
def firstParam (rule : validationRule) : String :=
  match rule.params with
  | p :: _ => p
  | [] => ""

/-- The `for _, rule := range rules` loop of `applyValidationRules`, started
with the errors collected so far. -/
def applyValidationRulesLoop (validators : Registry) (value : Value) (yamlTag : String)
    (node : Node) : List validationRule → List GoError → Go (List GoError)
  | [], errors => .ok errors
  | rule :: rest, errors =>
    let param := firstParam rule
    match validators rule.name with
    | some validator =>
      match validator value yamlTag node param with
      | .error p => .error p
      | .ok (some err) =>
        applyValidationRulesLoop validators value yamlTag node rest (errors ++ [err])
      | .ok none => applyValidationRulesLoop validators value yamlTag node rest errors
    | none => applyValidationRulesLoop validators value yamlTag node rest errors

/-- Function `applyValidationRules`. -/
def applyValidationRules (validators : Registry) (value : Value) (tag yamlTag : String)
    (node : Node) : Go (List GoError) :=
  applyValidationRulesLoop validators value yamlTag node (parseTag tag) []

/-- The map `fieldMap` of `ValidateStruct`. -/
abbrev FieldMap : Type := String → Option Node

/-- The assignment `fieldMap[key] = valueNode`. -/
def FieldMap.set (fieldMap : FieldMap) (key : String) (valueNode : Node) : FieldMap :=
  fun k => if k = key then some valueNode else fieldMap k

/-- The loop `for i := 0; i < len(node.Content)-1; i += 2` of `ValidateStruct`,
from index `i` on. The two index expressions panic when out of range. -/
def fieldMapLoop (Content : List Node) (i : Nat) (fieldMap : FieldMap) : Go FieldMap :=
  if (i : Int) < (Content.length : Int) - 1 then
    match Content[i]?, Content[i + 1]? with
    | some keyNode, some valueNode =>
      fieldMapLoop Content (i + 2)
        (if keyNode.Kind = NodeKind.ScalarNode then fieldMap.set keyNode.Value valueNode
         else fieldMap)
    | _, _ => .error "runtime error: index out of range"
  else .ok fieldMap
termination_by Content.length - i
decreasing_by omega

/-- Lines 23 to 32 of `ValidateStruct`: the lookup from document key to value
node. -/
def buildFieldMap (node : Node) : Go FieldMap :=
  if node.Kind = NodeKind.MappingNode then fieldMapLoop node.Content 0 (fun _ => none)
  else .ok (fun _ => none)

/-- The lookup built from a node, as a function of the document key. -/
def fieldLookup (node : Node) (key : String) : Option Node :=
  match buildFieldMap node with
  | .ok fieldMap => fieldMap key
  | .error _ => none

/-- Lines 37 and 40 to 42 of `ValidateStruct`: the effective document name of a
field, its `yaml` tag or, when that is empty, its declared name. -/
def effectiveName (field : StructField) : String :=
  if field.Tag.Get "yaml" = "" then field.Name else field.Tag.Get "yaml"

/-- The error appended for a missing required field. -/
def missingError (node : Node) (yamlTag : String) : GoError :=
  .CustomError node.Line node.Column ("required field '" ++ yamlTag ++ "' is missing")

/-- The loop `for i := 0; i < t.NumField(); i++` of `ValidateStruct` over the
remaining fields (each `t.Field(i)` with its `out.Field(i)`), started with the
errors collected so far. -/
def validateFieldsLoop (env : Env) (node : Node) (fieldMap : FieldMap) :
    List (StructField × Value) → List GoError → Go (List GoError)
  | [], errors => .ok errors
  | (field, fieldValue) :: rest, errors =>
    let tag := field.Tag.Get "validate"
    let yamlTag := field.Tag.Get "yaml"
    if tag ≠ "" then
      let yamlTag := if yamlTag = "" then field.Name else yamlTag
      match fieldMap yamlTag with
      | some childNode =>
        match (if env.isYAMLValueType field.Typ then fieldValue.FieldByName "Value"
               else .ok fieldValue) with
        | .error p => .error p
        | .ok fieldValue =>
          match applyValidationRules env.validators fieldValue tag yamlTag childNode with
          | .error p => .error p
          | .ok errs => validateFieldsLoop env node fieldMap rest (errors ++ errs)
      | none =>
        if tagContainsRequired tag then
          validateFieldsLoop env node fieldMap rest (errors ++ [missingError node yamlTag])
        else validateFieldsLoop env node fieldMap rest errors
    else validateFieldsLoop env node fieldMap rest errors

/-- Function `ValidateStruct`. `out.Type()` panics on the zero `Value`; a value
that is not a struct yields the nil slice. -/
def ValidateStruct (env : Env) (out : Value) (node : Node) : Go (List GoError) :=
  match out with
  | .invalid => .error "reflect: call of reflect.Value.Type on zero Value"
  | .struct _ fields =>
    match buildFieldMap node with
    | .error p => .error p
    | .ok fieldMap => validateFieldsLoop env node fieldMap fields []
  | _ => .ok []

/-! ### `validtors.go` -/

/-- Function `validateRequired`. -/
def validateRequired : Validator := fun value yamlTag node _param =>
  if isEmpty value then
    .ok (some (.CustomError node.Line node.Column ("field '" ++ yamlTag ++ "' is required")))
  else .ok none

/-- Function `validateGreaterThan`. -/
def validateGreaterThan : Validator := fun value yamlTag node param =>
  match Atoi param with
  | .error err => .ok (some err)
  | .ok threshold =>
    match value.Int with
    | .error p => .error p
    | .ok i =>
      if i ≤ threshold then
        .ok (some (.CustomError node.Line node.Column
          ("field '" ++ yamlTag ++ "' must be greater than " ++ fmtInt threshold)))
      else .ok none

/-- Function `validateDatetime`. The standard library's `time.Parse` is a
parameter: `timeParse layout value` tells whether `time.Parse(layout, value)`
returns a nil error. -/
def validateDatetime (timeParse : String → String → Bool) : Validator :=
  fun value yamlTag node param =>
    if ¬ timeParse param value.Str then
      .ok (some (.CustomError node.Line node.Column
        ("field '" ++ yamlTag ++ "' has invalid datetime format")))
    else .ok none

/-- Function `init`: the `validators` map after package initialisation. -/
def init (timeParse : String → String → Bool) : Registry :=
  RegisterValidator
    (RegisterValidator
      (RegisterValidator (fun _ => none) "required" validateRequired)
      "gt" validateGreaterThan)
    "datetime" (validateDatetime timeParse)

/-! ### The specification's notion of an empty value -/

/-- The zero or empty values in the words of the specification of `required`:
the empty string, an empty or nil container, the boolean `false`, a zero number
(integer, unsigned, floating-point or complex), a nil pointer or interface. -/
def zeroOrEmpty : Value → Bool
  | .str _ s => s = ""
  | .array _ len => len = 0
  | .slice _ len | .map _ len => len = none ∨ len = some 0
  | .bool _ b => b = false
  | .int _ i => i = 0
  | .uint _ u => u = 0
  | .float _ bits => floatIsZero bits
  | .complex _ re im => floatIsZero re ∧ floatIsZero im
  | .ptr _ isNil | .iface _ isNil => isNil
  | _ => false

/-- Whether the kind of a value is `Complex64` or `Complex128`. -/
def Value.isComplex : Value → Bool
  | .complex _ _ _ => true
  | _ => false

/-! ### The test of `yaml_test.go` -/

/-- A stand-in for `time.Parse` that knows one layout only, the RFC 3339 layout
of the test, and accepts a UTC timestamp `dddd-dd-ddTdd:dd:ddZ`. It serves to
instantiate the `timeParse` parameter on concrete inputs. -/
def sampleTimeParse (layout value : String) : Bool :=
  layout = "2006-01-02T15:04:05Z07:00" &&
    match value.data with
    | [y1, y2, y3, y4, '-', m1, m2, '-', d1, d2, 'T', h1, h2, ':', n1, n2, ':', s1, s2, 'Z'] =>
      [y1, y2, y3, y4, m1, m2, d1, d2, h1, h2, n1, n2, s1, s2].all
        (fun c => (digitValue c).isSome)
    | _ => false

/-- The registry after `init`, with a given `isYAMLValueType`. -/
def defaultEnv (timeParse : String → String → Bool) (isYAMLValueType : GoType → Bool) : Env :=
  { validators := init timeParse, isYAMLValueType := isYAMLValueType }

/-- The environment of the test: the registry after `init`, no field type being
the boxed wrapper. -/
def testEnv : Env := defaultEnv sampleTimeParse (fun _ => false)

/-- A scalar node. -/
def scalarNode (line column : Int) (value : String) : Node :=
  { Kind := .ScalarNode, Line := line, Column := column, Value := value, Content := [] }

/-- The struct field `name` of type `typ` with the given `yaml` and `validate` tags. -/
def taggedField (name typ yaml validate : String) : StructField :=
  { Name := name, Typ := { Name := typ },
    Tag := { pairs := [("yaml", yaml), ("validate", validate)] } }

/-- The four fields of the test type `Person`. -/
def personName : StructField := taggedField "Name" "string" "name" "required"

def personAge : StructField := taggedField "Age" "int" "age" "gt=18"

def personCreatedAt : StructField :=
  taggedField "CreatedAt" "string" "created_at" "datetime=2006-01-02T15:04:05Z07:00"

def personEmail : StructField := taggedField "Email" "string" "email" "email"

/-- A `Person` value. -/
def person (name : String) (age : Int) (createdAt email : String) : Value :=
  .struct { Name := "yaml_test.Person" }
    [(personName, .str { Name := "string" } name),
     (personAge, .int { Name := "int" } age),
     (personCreatedAt, .str { Name := "string" } createdAt),
     (personEmail, .str { Name := "string" } email)]

/-- The mapping node of the first document of the test. -/
def document1 : Node :=
  { Kind := .MappingNode, Line := 2, Column := 1, Value := "",
    Content :=
      [scalarNode 2 1 "name", scalarNode 2 7 "John Doe",
       scalarNode 3 1 "age", scalarNode 3 6 "30",
       scalarNode 4 1 "email", scalarNode 4 8 "john.doe@example.com",
       scalarNode 5 1 "created_at", scalarNode 5 13 "2023-06-21T15:00:00Z"] }

/-- The mapping node of the second document of the test: no `name` key. -/
def document2 : Node :=
  { Kind := .MappingNode, Line := 2, Column := 1, Value := "",
    Content :=
      [scalarNode 2 1 "age", scalarNode 2 6 "16",
       scalarNode 3 1 "email", scalarNode 3 8 "john.doe@example.com",
       scalarNode 4 1 "created_at", scalarNode 4 13 "2023-06-21T15:00:00Z"] }

/-- The structure of the end-to-end property: `name` (required), `age`
(`gt=18`) and `created_at` (datetime with the RFC 3339 layout). -/
def person3 (name : String) (age : Int) (createdAt : String) : Value :=
  .struct { Name := "Person" }
    [(personName, .str { Name := "string" } name),
     (personAge, .int { Name := "int" } age),
     (personCreatedAt, .str { Name := "string" } createdAt)]

/-- The mapping node of the document `name: John Doe`, `age: 30`,
`created_at: 2023-06-21T15:00:00Z`, one key per line. -/
def documentA : Node :=
  { Kind := .MappingNode, Line := 1, Column := 1, Value := "",
    Content :=
      [scalarNode 1 1 "name", scalarNode 1 7 "John Doe",
       scalarNode 2 1 "age", scalarNode 2 6 "30",
       scalarNode 3 1 "created_at", scalarNode 3 13 "2023-06-21T15:00:00Z"] }

/-- The mapping node of the document `age: 16`,
`created_at: 2023-06-21T15:00:00Z`. -/
def documentB : Node :=
  { Kind := .MappingNode, Line := 1, Column := 1, Value := "",
    Content :=
      [scalarNode 1 1 "age", scalarNode 1 6 "16",
       scalarNode 2 1 "created_at", scalarNode 2 13 "2023-06-21T15:00:00Z"] }

/-- A field `Age` with two rules that the value 0 both violates. -/
def ageTwoRules : StructField := taggedField "Age" "int" "age" "required,gt=18"

/-- The mapping node of the document `age: 0`. -/
def documentZero : Node :=
  { Kind := .MappingNode, Line := 1, Column := 1, Value := "",
    Content := [scalarNode 1 1 "age", scalarNode 1 6 "0"] }

/-- A rule fails on a value when a validator is registered under its name and
that validator, called on the value, returns an error. -/
def ruleFails (validators : Registry) (value : Value) (yamlTag : String) (node : Node)
    (rule : validationRule) : Bool :=
  match validators rule.name with
  | some validator =>
    match validator value yamlTag node (firstParam rule) with
    | .ok (some _) => true
    | _ => false
  | none => false

/-- The number of violations of a field, read off its rules and its value and
not off what `ValidateStruct` reports: none without `validate` tag; for a field
present in the document, the number of its rules that fail on its value; for a
field absent from the document, one when a rule is named `required`, else
none. -/
def violations (env : Env) (node : Node) (f : StructField × Value) : Nat :=
  if f.1.Tag.Get "validate" = "" then 0
  else
    match fieldLookup node (effectiveName f.1) with
    | some childNode =>
      match (if env.isYAMLValueType f.1.Typ then f.2.FieldByName "Value" else .ok f.2) with
      | .ok value =>
        ((parseTag (f.1.Tag.Get "validate")).filter
          (ruleFails env.validators value (effectiveName f.1) childNode)).length
      | .error _ => 0
    | none =>
      if ∃ r ∈ parseTag (f.1.Tag.Get "validate"), r.name = "required" then 1 else 0

/-- A field is violated when it has at least one violation. -/
def fieldViolated (env : Env) (node : Node) (f : StructField × Value) : Bool :=
  0 < violations env node f

/-- The number `M` of violated fields of a structure. -/
def violatedCount (env : Env) (fields : List (StructField × Value)) (node : Node) : Nat :=
  (fields.filter (fieldViolated env node)).length

/-- The fields `name` (required), `age` (`required,gt=18`) and `created_at`
(datetime) with the values decoded from the document `age: 0`. -/
def threeFieldsZero : List (StructField × Value) :=
  [(personName, .str { Name := "string" } ""),
   (ageTwoRules, .int { Name := "int" } 0),
   (personCreatedAt, .str { Name := "string" } "")]

/-- An error is attributable to a field by its message when it is a
`CustomError` whose message contains the field's document name in quotes. -/
def namesField (name : String) : GoError → Prop
  | .CustomError _ _ msg => ∃ before after : String, msg = before ++ "'" ++ name ++ "'" ++ after
  | _ => False

/-- A field `Age` whose first `gt` rule has a parameter that is no integer and
whose second `gt` rule is well formed. -/
def ageBadParam : StructField := taggedField "Age" "int" "age" "gt=abc,gt=18"

/-- A registry in which every name has a validator, and every validator panics. -/
def panickingEnv : Env :=
  { validators := fun _ => some (fun _ _ _ _ => .error "validator called"),
    isYAMLValueType := fun _ => false }

/-! ### Further sample inputs -/

/-- A sequence node with two scalar items: not a mapping, though its content
looks like a key and a value. -/
def sequenceNode : Node :=
  { Kind := .SequenceNode, Line := 7, Column := 3, Value := "",
    Content := [scalarNode 7 5 "name", scalarNode 8 5 "John Doe"] }

/-! ### The lookup loop, pair by pair -/

/-- The complete key/value pairs of a content list, in order; an element left
over at the end has no partner and is in no pair. -/
def contentPairs : List Node → List (Node × Node)
  | keyNode :: valueNode :: rest => (keyNode, valueNode) :: contentPairs rest
  | _ => []

/-- The body of the lookup loop applied to one pair: lines 26 to 30 of
`ValidateStruct`. -/
def FieldMap.addPair (fieldMap : FieldMap) (pair : Node × Node) : FieldMap :=
  if pair.1.Kind = NodeKind.ScalarNode then fieldMap.set pair.1.Value pair.2 else fieldMap

/-- The loop `for i := 0; i < len(node.Content)-1; i += 2` again, recording in
addition the indices `i` at which the body runs. -/
def fieldMapLoopVisited (Content : List Node) (i : Nat) (fieldMap : FieldMap)
    (visited : List Nat) : Go (FieldMap × List Nat) :=
  if (i : Int) < (Content.length : Int) - 1 then
    match Content[i]?, Content[i + 1]? with
    | some keyNode, some valueNode =>
      fieldMapLoopVisited Content (i + 2)
        (if keyNode.Kind = NodeKind.ScalarNode then fieldMap.set keyNode.Value valueNode
         else fieldMap)
        (visited ++ [i])
    | _, _ => .error "runtime error: index out of range"
  else .ok (fieldMap, visited)
termination_by Content.length - i
decreasing_by omega

/-- A mapping node in which the key `age` occurs twice: `age: 30` on line 1 and
`age: 16` on line 2. -/
def documentDuplicate : Node :=
  { Kind := .MappingNode, Line := 1, Column := 1, Value := "",
    Content :=
      [scalarNode 1 1 "age", scalarNode 1 6 "30",
       scalarNode 2 1 "age", scalarNode 2 6 "16"] }

/-- A mapping node whose content has odd length: the pair `age: 16` and a last
key `name` without value. -/
def documentTrailing : Node :=
  { Kind := .MappingNode, Line := 1, Column := 1, Value := "",
    Content := [scalarNode 1 1 "age", scalarNode 1 6 "16", scalarNode 2 1 "name"] }

/-- A mapping node whose first key is a sequence node carrying the text `name`
and whose second pair is `age: 16`. -/
def documentSequenceKey : Node :=
  { Kind := .MappingNode, Line := 1, Column := 1, Value := "",
    Content :=
      [{ Kind := .SequenceNode, Line := 1, Column := 3, Value := "name", Content := [] },
       scalarNode 1 9 "John Doe",
       scalarNode 2 1 "age", scalarNode 2 6 "16"] }

/-- A field whose `yaml` tag carries an option after the name, as the decoder
accepts it, and whose `validate` tag is `required`. -/
def nameOmitEmpty : StructField := taggedField "Name" "string" "name,omitempty" "required"

/-- A field `Nick` without `yaml` tag and with the `validate` tag `required`. -/
def nickNoYamlTag : StructField :=
  { Name := "Nick", Typ := { Name := "string" }, Tag := { pairs := [("validate", "required")] } }

/-- A field `Note` that has a `yaml` tag and no `validate` tag. -/
def noteUntagged : StructField :=
  { Name := "Note", Typ := { Name := "string" }, Tag := { pairs := [("yaml", "name")] } }

/-! ### Rendering rules back to a tag -/

/-- The text of a rule: `name` when it has no parameter, `name=param` when it
has one. -/
def renderRule (rule : validationRule) : String :=
  match rule.params with
  | [] => rule.name
  | p :: _ => rule.name ++ "=" ++ p

/-- The texts of the rules joined with commas. -/
def renderTag (rules : List validationRule) : String :=
  ",".intercalate (rules.map renderRule)

/-- The total number of rules over the fields that have a `validate` tag. -/
def totalRules (fields : List (StructField × Value)) : Nat :=
  ((fields.filter (fun f => f.1.Tag.Get "validate" ≠ "")).map
    (fun f => (parseTag (f.1.Tag.Get "validate")).length)).sum

/-! ### A call of `ValidateStruct` on mutable memory -/

/-- A `*Node`: the address of a node in memory. -/
abbrev Addr : Type := Nat

/-- Modelled from the spec: the `Node` struct as it lies in memory, with the
members the validation code reads; its content is a slice of node pointers. -/
structure NodeCell where
  Kind : NodeKind
  Line : Int
  Column : Int
  Value : String
  Content : List Addr

/-- The memory a call of `ValidateStruct` and the validators it calls can
reach: the nodes by address (no cell at an address: a nil pointer), the current
values of the fields of the target struct, and the lines written to the
standard output. -/
structure Memory where
  nodes : Addr → Option NodeCell
  target : List Value
  stdout : List String

/-- The `reflect.Value` handed to a validator: it refers to the memory of field
`index` of the target, or, after `FieldByName("Value")`, to its member `Value`. -/
structure ValueRef where
  index : Nat
  unwrap : Bool
  deriving DecidableEq, Repr

/-- What a `reflect.Value` handle shows at the moment it is read. -/
def readValue (target : List Value) (ref : ValueRef) : Go Value :=
  match target[ref.index]? with
  | some v => if ref.unwrap then v.FieldByName "Value" else .ok v
  | none => .error "reflect: Field index out of range"

/-- Dereference of a node pointer; a nil pointer panics. -/
def derefNode (nodes : Addr → Option NodeCell) (a : Addr) : Go NodeCell :=
  match nodes a with
  | some cell => .ok cell
  | none => .error "runtime error: invalid memory address or nil pointer dereference"

/-- Type `Validator` for validators that may read and write memory: the error
returned and the memory after the call. -/
abbrev ValidatorM : Type :=
  Memory → ValueRef → String → Addr → String → Go (Option GoError × Memory)

/-- The `validators` map holding such validators. It is fixed during a call. -/
abbrev RegistryM : Type := String → Option ValidatorM

/-- The map `fieldMap` of `ValidateStruct`, holding node pointers. -/
abbrev FieldMapM : Type := String → Option Addr

/-- The loop `for i := 0; i < len(node.Content)-1; i += 2` on memory: the key
pointer is dereferenced for its `Kind` and `Value`, the value pointer is stored
as it is. Nothing is written during the loop, so the content slice is the one
read from the node at its start. -/
def fieldMapLoopM (nodes : Addr → Option NodeCell) (Content : List Addr) (i : Nat)
    (fieldMap : FieldMapM) : Go FieldMapM :=
  if (i : Int) < (Content.length : Int) - 1 then
    match Content[i]?, Content[i + 1]? with
    | some keyAddr, some valueAddr =>
      match derefNode nodes keyAddr with
      | .error p => .error p
      | .ok keyNode =>
        fieldMapLoopM nodes Content (i + 2)
          (if keyNode.Kind = NodeKind.ScalarNode then
            (fun k => if k = keyNode.Value then some valueAddr else fieldMap k)
           else fieldMap)
    | _, _ => .error "runtime error: index out of range"
  else .ok fieldMap
termination_by Content.length - i
decreasing_by omega

/-- Lines 23 to 32 of `ValidateStruct` on memory. -/
def buildFieldMapM (nodes : Addr → Option NodeCell) (node : Addr) : Go FieldMapM :=
  match derefNode nodes node with
  | .error p => .error p
  | .ok root =>
    if root.Kind = NodeKind.MappingNode then fieldMapLoopM nodes root.Content 0 (fun _ => none)
    else .ok (fun _ => none)

/-- The loop of `applyValidationRules` on memory: each validator runs in the
memory its predecessors left; for a rule without validator
`fmt.Println("Validator not found for: ", rule.name)` writes a line. -/
def applyValidationRulesRun (validators : RegistryM) (value : ValueRef) (yamlTag : String)
    (node : Addr) : List validationRule → List GoError → Memory → Go (List GoError × Memory)
  | [], errors, m => .ok (errors, m)
  | rule :: rest, errors, m =>
    let param := firstParam rule
    match validators rule.name with
    | some validator =>
      match validator m value yamlTag node param with
      | .error p => .error p
      | .ok (some err, m2) =>
        applyValidationRulesRun validators value yamlTag node rest (errors ++ [err]) m2
      | .ok (none, m2) => applyValidationRulesRun validators value yamlTag node rest errors m2
    | none =>
      applyValidationRulesRun validators value yamlTag node rest errors
        { m with stdout := m.stdout ++ ["Validator not found for:  " ++ rule.name] }

/-- The field loop of `ValidateStruct` on memory, from field number `i` on. The
field descriptors come from the type of the target and do not change;
`FieldByName("Value")` panics when the field is not a struct. -/
def validateFieldsRun (validators : RegistryM) (isYAMLValueType : GoType → Bool) (node : Addr)
    (fieldMap : FieldMapM) :
    List StructField → Nat → List GoError → Memory → Go (List GoError × Memory)
  | [], _, errors, m => .ok (errors, m)
  | field :: rest, i, errors, m =>
    let tag := field.Tag.Get "validate"
    let yamlTag := field.Tag.Get "yaml"
    if tag ≠ "" then
      let yamlTag := if yamlTag = "" then field.Name else yamlTag
      match fieldMap yamlTag with
      | some childNode =>
        let fieldValue : ValueRef := { index := i, unwrap := isYAMLValueType field.Typ }
        match (if isYAMLValueType field.Typ then readValue m.target fieldValue
               else .ok .invalid) with
        | .error p => .error p
        | .ok _ =>
          match applyValidationRulesRun validators fieldValue yamlTag childNode
              (parseTag tag) [] m with
          | .error p => .error p
          | .ok (errs, m2) =>
            validateFieldsRun validators isYAMLValueType node fieldMap rest (i + 1)
              (errors ++ errs) m2
      | none =>
        if tagContainsRequired tag then
          match derefNode m.nodes node with
          | .error p => .error p
          | .ok root =>
            validateFieldsRun validators isYAMLValueType node fieldMap rest (i + 1)
              (errors ++ [GoError.CustomError root.Line root.Column
                ("required field '" ++ yamlTag ++ "' is missing")]) m
        else validateFieldsRun validators isYAMLValueType node fieldMap rest (i + 1) errors m
    else validateFieldsRun validators isYAMLValueType node fieldMap rest (i + 1) errors m

/-- The type of the target `out`, as far as `ValidateStruct` looks at it. -/
inductive TargetType where
  | invalid
  | struct (t : GoType) (fields : List StructField)
  | other (t : GoType)

/-- A call `ValidateStruct(out, node)` on memory: the returned errors and the
memory after the call. The function itself assigns to its local variables
only; what it writes is the output of the notices, and what the validators
write. -/
def ValidateStructRun (validators : RegistryM) (isYAMLValueType : GoType → Bool)
    (out : TargetType) (node : Addr) (m : Memory) : Go (List GoError × Memory) :=
  match out with
  | .invalid => .error "reflect: call of reflect.Value.Type on zero Value"
  | .other _ => .ok ([], m)
  | .struct _ fields =>
    match buildFieldMapM m.nodes node with
    | .error p => .error p
    | .ok fieldMap => validateFieldsRun validators isYAMLValueType node fieldMap fields 0 [] m

/-- Function `validateRequired` on memory. -/
def validateRequiredM : ValidatorM := fun m value yamlTag node _param =>
  match readValue m.target value with
  | .error p => .error p
  | .ok v =>
    if isEmpty v then
      match derefNode m.nodes node with
      | .error p => .error p
      | .ok cell =>
        .ok (some (.CustomError cell.Line cell.Column ("field '" ++ yamlTag ++ "' is required")),
          m)
    else .ok (none, m)

/-- Function `validateGreaterThan` on memory. -/
def validateGreaterThanM : ValidatorM := fun m value yamlTag node param =>
  match Atoi param with
  | .error err => .ok (some err, m)
  | .ok threshold =>
    match readValue m.target value with
    | .error p => .error p
    | .ok v =>
      match v.Int with
      | .error p => .error p
      | .ok i =>
        if i ≤ threshold then
          match derefNode m.nodes node with
          | .error p => .error p
          | .ok cell =>
            .ok (some (.CustomError cell.Line cell.Column
              ("field '" ++ yamlTag ++ "' must be greater than " ++ fmtInt threshold)), m)
        else .ok (none, m)

/-- Function `validateDatetime` on memory. -/
def validateDatetimeM (timeParse : String → String → Bool) : ValidatorM :=
  fun m value yamlTag node param =>
    match readValue m.target value with
    | .error p => .error p
    | .ok v =>
      if ¬ timeParse param v.Str then
        match derefNode m.nodes node with
        | .error p => .error p
        | .ok cell =>
          .ok (some (.CustomError cell.Line cell.Column
            ("field '" ++ yamlTag ++ "' has invalid datetime format")), m)
      else .ok (none, m)

/-- Function `RegisterValidator` for the registry on memory. -/
def RegisterValidatorM (validators : RegistryM) (name : String) (validator : ValidatorM) :
    RegistryM :=
  fun k => if k = name then some validator else validators k

/-- Function `init` for the registry on memory. -/
def initM (timeParse : String → String → Bool) : RegistryM :=
  RegisterValidatorM
    (RegisterValidatorM
      (RegisterValidatorM (fun _ => none) "required" validateRequiredM)
      "gt" validateGreaterThanM)
    "datetime" (validateDatetimeM timeParse)

/-- A validator only reads: it returns the memory it was given, and its result
is the same in any two memories with the same nodes and the same target. -/
def ReadOnly (validator : ValidatorM) : Prop :=
  ∀ (m : Memory) (value : ValueRef) (yamlTag : String) (node : Addr) (param : String),
    (∀ (r : Option GoError) (m2 : Memory),
      validator m value yamlTag node param = .ok (r, m2) → m2 = m) ∧
    (∀ m3 : Memory, m3.nodes = m.nodes → m3.target = m.target →
      (validator m3 value yamlTag node param).map Prod.fst =
        (validator m value yamlTag node param).map Prod.fst)

/-- The complete key/value pairs of a slice of node pointers. -/
def addrPairs : List Addr → List (Addr × Addr)
  | keyAddr :: valueAddr :: rest => (keyAddr, valueAddr) :: addrPairs rest
  | _ => []

/-- The body of the lookup loop on memory, applied to one pair. -/
def lookupStepM (nodes : Addr → Option NodeCell) (fieldMap : FieldMapM) (pair : Addr × Addr) :
    Go FieldMapM :=
  match derefNode nodes pair.1 with
  | .error p => .error p
  | .ok keyNode =>
    .ok (if keyNode.Kind = NodeKind.ScalarNode then
      (fun k => if k = keyNode.Value then some pair.2 else fieldMap k)
    else fieldMap)

/-- A custom validator that writes to the target: `default=<n>` stores `n` in
an `int` field that holds 0, and returns no error. In Go:
`if v.Kind() == reflect.Int && v.Int() == 0 { if d, err := strconv.Atoi(p); err == nil { v.SetInt(int64(d)) } }; return nil`. -/
def setDefaultM : ValidatorM := fun m value _yamlTag _node param =>
  match m.target[value.index]?, Atoi param with
  | some (.int t 0), .ok d =>
    .ok (none, { m with target := m.target.set value.index (.int t d) })
  | _, _ => .ok (none, m)

/-- The registry of `init` with `setDefaultM` registered under `default`. -/
def registryWithDefault : RegistryM :=
  RegisterValidatorM (initM sampleTimeParse) "default" setDefaultM

/-- A target type with the single field `Age`, tagged `gt=18,default=20`. -/
def ageWithDefault : TargetType :=
  .struct { Name := "T" } [taggedField "Age" "int" "age" "gt=18,default=20"]

/-- A scalar node in memory. -/
def scalarCell (line column : Int) (value : String) : NodeCell :=
  { Kind := .ScalarNode, Line := line, Column := column, Value := value, Content := [] }

/-- The memory after decoding the document `age: 0`: the mapping node at
address 0, its key at 1 and its value at 2; the field `Age` holds 0. -/
def memoryZero : Memory :=
  { nodes := fun a =>
      if a = 0 then
        some { Kind := .MappingNode, Line := 1, Column := 1, Value := "", Content := [1, 2] }
      else if a = 1 then some (scalarCell 1 1 "age")
      else if a = 2 then some (scalarCell 1 6 "0")
      else none,
    target := [.int { Name := "int" } 0],
    stdout := [] }

/-- The type `Person` of the test. -/
def personType : TargetType :=
  .struct { Name := "yaml_test.Person" } [personName, personAge, personCreatedAt, personEmail]

/-- The memory after decoding the second document of the test: the mapping
node at address 0, keys and values at 1 to 6. -/
def memoryTest : Memory :=
  { nodes := fun a =>
      if a = 0 then
        some { Kind := .MappingNode, Line := 2, Column := 1, Value := "",
               Content := [1, 2, 3, 4, 5, 6] }
      else if a = 1 then some (scalarCell 2 1 "age")
      else if a = 2 then some (scalarCell 2 6 "16")
      else if a = 3 then some (scalarCell 3 1 "email")
      else if a = 4 then some (scalarCell 3 8 "john.doe@example.com")
      else if a = 5 then some (scalarCell 4 1 "created_at")
      else if a = 6 then some (scalarCell 4 13 "2023-06-21T15:00:00Z")
      else none,
    target :=
      [.str { Name := "string" } "", .int { Name := "int" } 16,
       .str { Name := "string" } "2023-06-21T15:00:00Z",
       .str { Name := "string" } "john.doe@example.com"],
    stdout := [] }

/-- The cell at an address holds the kind, position and value of a node. -/
def cellOf (nodes : Addr → Option NodeCell) (a : Addr) (n : Node) : Prop :=
  ∃ cell, nodes a = some cell ∧ cell.Kind = n.Kind ∧ cell.Line = n.Line ∧
    cell.Column = n.Column ∧ cell.Value = n.Value

/-- The memory at an address represents a node as far as `ValidateStruct` and
the built-in validators look: the node itself and each element of its content. -/
def represents (nodes : Addr → Option NodeCell) (a : Addr) (n : Node) : Prop :=
  ∃ cell, nodes a = some cell ∧ cell.Kind = n.Kind ∧ cell.Line = n.Line ∧
    cell.Column = n.Column ∧ cell.Value = n.Value ∧
    List.Forall₂ (cellOf nodes) cell.Content n.Content

/-- A lookup of node pointers stands for a lookup of nodes. -/
def lookupStandsFor (nodes : Addr → Option NodeCell) (fieldMapM : FieldMapM)
    (fieldMap : FieldMap) : Prop :=
  ∀ key, (fieldMap key = none → fieldMapM key = none) ∧
    (∀ n, fieldMap key = some n → ∃ a, fieldMapM key = some a ∧ cellOf nodes a n)

/-- A validator on memory does what a validator on values does, on the value
the handle shows and the node at the address, and writes nothing. -/
def actsAs (validatorM : ValidatorM) (validator : Validator) : Prop :=
  ∀ (m : Memory) (ref : ValueRef) (yamlTag : String) (a : Addr) (param : String)
    (value : Value) (n : Node),
    cellOf m.nodes a n → readValue m.target ref = .ok value →
    validatorM m ref yamlTag a param =
      match validator value yamlTag n param with
      | .ok r => .ok (r, m)
      | .error p => .error p

/-- A run on memory `m` does what a function on values does: it returns the
same errors and changes at most the standard output, or panics the same way. -/
def runsAs (pure : Go (List GoError)) (run : Go (List GoError × Memory)) (m : Memory) :
    Prop :=
  match pure with
  | .ok e => ∃ stdout, run = .ok (e, { m with stdout := stdout })
  | .error p => run = .error p

/-- A registry on memory stands for a registry on values: the same names are
registered, and each validator on memory does what the one on values does. -/
def registryActsAs (validatorsM : RegistryM) (validators : Registry) : Prop :=
  ∀ name, (validatorsM name = none ∧ validators name = none) ∨
    ∃ validatorM validator, validatorsM name = some validatorM ∧
      validators name = some validator ∧ actsAs validatorM validator

/-- A custom validator that writes to the node: `fill=<text>` reports a value
node whose text is empty and stores `text` in it. In Go:
`if node.Value == "" { node.Value = p; return CustomError{Line: node.Line, Column: node.Column, Msg: fmt.Sprintf("field '%s' was empty", tag)} }; return nil`. -/
def fillNodeM : ValidatorM := fun m _value yamlTag node param =>
  match derefNode m.nodes node with
  | .error p => .error p
  | .ok cell =>
    if cell.Value = "" then
      .ok (some (.CustomError cell.Line cell.Column ("field '" ++ yamlTag ++ "' was empty")),
        { m with nodes := fun a => if a = node then some { cell with Value := param }
                                   else m.nodes a })
    else .ok (none, m)

/-- The registry of `init` with `fillNodeM` registered under `fill`. -/
def registryWithFill : RegistryM :=
  RegisterValidatorM (initM sampleTimeParse) "fill" fillNodeM

/-- A target type with the single field `Name`, tagged `fill=unknown`. -/
def nameWithFill : TargetType :=
  .struct { Name := "T" } [taggedField "Name" "string" "name" "fill=unknown"]

/-- The memory after decoding the document `name: ""`: the mapping node at
address 0, its key at 1 and its value at 2; the field `Name` holds the empty
string. -/
def memoryEmptyName : Memory :=
  { nodes := fun a =>
      if a = 0 then
        some { Kind := .MappingNode, Line := 1, Column := 1, Value := "", Content := [1, 2] }
      else if a = 1 then some (scalarCell 1 1 "name")
      else if a = 2 then some (scalarCell 1 7 "")
      else none,
    target := [.str { Name := "string" } ""],
    stdout := [] }

/-! ## Theorems -/

/-! ### Splitting -/

theorem splitChars_ne_nil (sep : Char) (cs : List Char) : splitChars sep cs ≠ [] := by
  cases cs with
  | nil => simp [splitChars]
  | cons c cs =>
    by_cases h : c = sep
    · simp [splitChars, h]
    · cases hs : splitChars sep cs <;> simp [splitChars, h, hs]

theorem length_splitChars (sep : Char) (cs : List Char) :
    (splitChars sep cs).length = cs.count sep + 1 := by
  induction cs with
  | nil => simp [splitChars]
  | cons c cs ih =>
    by_cases h : c = sep
    · subst h
      simp [splitChars, ih]
    · have hne : (c == sep) = false := by simpa using h
      cases hs : splitChars sep cs with
      | nil => exact absurd hs (splitChars_ne_nil sep cs)
      | cons seg segs =>
        rw [hs] at ih
        simp [splitChars, h, hs, List.count_cons, hne] at ih ⊢
        omega

theorem intercalate_splitChars (sep : Char) (cs : List Char) :
    List.intercalate [sep] (splitChars sep cs) = cs := by
  induction cs with
  | nil => simp [splitChars, List.intercalate]
  | cons c cs ih =>
    by_cases h : c = sep
    · subst h
      cases hs : splitChars c cs with
      | nil => exact absurd hs (splitChars_ne_nil c cs)
      | cons seg segs =>
        rw [hs] at ih
        simp [splitChars, hs, List.intercalate] at ih ⊢
        exact ih
    · cases hs : splitChars sep cs with
      | nil => exact absurd hs (splitChars_ne_nil sep cs)
      | cons seg segs =>
        rw [hs] at ih
        cases segs with
        | nil =>
          simp [splitChars, h, hs, List.intercalate] at ih ⊢
          exact ih
        | cons seg2 segs2 =>
          simp [splitChars, h, hs, List.intercalate] at ih ⊢
          exact ih

theorem not_mem_of_mem_splitChars (sep : Char) (cs : List Char) :
    ∀ seg ∈ splitChars sep cs, sep ∉ seg := by
  induction cs with
  | nil => simp [splitChars]
  | cons c cs ih =>
    by_cases h : c = sep
    · subst h
      intro seg hseg
      simp [splitChars] at hseg
      rcases hseg with rfl | hseg
      · simp
      · exact ih seg hseg
    · cases hs : splitChars sep cs with
      | nil => exact absurd hs (splitChars_ne_nil sep cs)
      | cons seg1 segs =>
        rw [hs] at ih
        intro seg hseg
        simp [splitChars, h, hs] at hseg
        rcases hseg with rfl | hseg
        · have h1 := ih seg1 (by simp)
          simp only [List.mem_cons, not_or]
          exact ⟨fun e => h e.symm, h1⟩
        · exact ih seg (by simp [hseg])

theorem splitChars_of_not_mem (sep : Char) (cs : List Char) (h : sep ∉ cs) :
    splitChars sep cs = [cs] := by
  induction cs with
  | nil => simp [splitChars]
  | cons c cs ih =>
    simp only [List.mem_cons, not_or] at h
    have hc : ¬ c = sep := fun e => h.1 e.symm
    simp [splitChars, hc, ih h.2]

theorem cutChars_of_not_mem (sep : Char) (cs : List Char) (h : sep ∉ cs) :
    cutChars sep cs = (cs, none) := by
  induction cs with
  | nil => simp [cutChars]
  | cons c cs ih =>
    simp only [List.mem_cons, not_or] at h
    have hc : ¬ c = sep := fun e => h.1 e.symm
    simp [cutChars, hc, ih h.2]

theorem cutChars_of_mem (sep : Char) (cs : List Char) (h : sep ∈ cs) :
    ∃ a b, cutChars sep cs = (a, some b) ∧ cs = a ++ sep :: b ∧ sep ∉ a := by
  induction cs with
  | nil => simp at h
  | cons c cs ih =>
    by_cases hc : c = sep
    · subst hc
      exact ⟨[], cs, by simp [cutChars], by simp, by simp⟩
    · have hmem : sep ∈ cs := by
        rcases List.mem_cons.mp h with e | e
        · exact absurd e.symm hc
        · exact e
      obtain ⟨a, b, h1, h2, h3⟩ := ih hmem
      refine ⟨c :: a, b, by simp [cutChars, hc, h1], by simp [h2], ?_⟩
      simp only [List.mem_cons, not_or]
      exact ⟨fun e => hc e.symm, h3⟩

/-! ### The rule grammar parser -/

theorem foldl_append_singleton {α β : Type} (f : α → β) (xs : List α) (acc : List β) :
    xs.foldl (fun rules part => rules ++ [f part]) acc = acc ++ xs.map f := by
  induction xs generalizing acc with
  | nil => simp
  | cons x xs ih => simp [ih]

theorem parseTag_eq_map (tag : String) :
    parseTag tag = (stringsSplit tag ',').map parsePart := by
  simp [parseTag, foldl_append_singleton]

theorem parsePart_of_not_mem (s : String) (h : '=' ∉ s.data) :
    parsePart s = { name := s, params := [] } := by
  simp [parsePart, stringsSplitN2, cutChars_of_not_mem _ _ h]

theorem parsePart_of_mem (s : String) (h : '=' ∈ s.data) :
    ∃ name param : String, s = name ++ "=" ++ param ∧ '=' ∉ name.data ∧
      parsePart s = { name := name, params := [param] } := by
  obtain ⟨a, b, h1, h2, h3⟩ := cutChars_of_mem _ _ h
  refine ⟨String.mk a, String.mk b, ?_, h3, ?_⟩
  · apply String.ext
    simp [h2]
  · simp [parsePart, stringsSplitN2, h1]

theorem parsePart_params_length (s : String) : (parsePart s).params.length ≤ 1 := by
  simp only [parsePart]
  split <;> simp

/-- C3: `parseTag` yields exactly one rule per comma-separated segment of the
tag, in segment order: the rules are the images of the segments, the segments
joined by commas give the tag back verbatim (nothing is trimmed) and no segment
contains a comma; the number of rules is the number of commas plus one. The
examples `"a,b=c"`, the empty tag and a tag with blanks are evaluated. -/
theorem parseTag_one_rule_per_segment (t : String) :
    (parseTag t).length = t.data.count ',' + 1 ∧
    (∃ segs : List String, parseTag t = segs.map parsePart ∧
      List.intercalate [','] (segs.map String.data) = t.data ∧
      ∀ seg ∈ segs, ',' ∉ seg.data) ∧
    parseTag "a,b=c" = [{ name := "a", params := [] }, { name := "b", params := ["c"] }] ∧
    parseTag "" = [{ name := "", params := [] }] ∧
    parseTag " a , b= c " =
      [{ name := " a ", params := [] }, { name := " b", params := [" c "] }] := by
  refine ⟨?_, ⟨stringsSplit t ',', parseTag_eq_map t, ?_, ?_⟩, by decide, by decide, by decide⟩
  · simp [parseTag_eq_map, stringsSplit, length_splitChars]
  · have : (stringsSplit t ',').map String.data = splitChars ',' t.data := by
      simp [stringsSplit, Function.comp_def]
    rw [this, intercalate_splitChars]
  · intro seg hseg
    simp only [stringsSplit, List.mem_map] at hseg
    obtain ⟨cs, hcs, rfl⟩ := hseg
    exact not_mem_of_mem_splitChars _ _ cs hcs

/-- C4: for a comma-free segment `s`, `parseTag` produces the single rule whose
name is the text before the first `=` of `s` and whose only parameter is all the
text after that first `=`; without any `=` the name is `s` and there is no
parameter. Every rule `parseTag` produces, for any tag, has at most one
parameter. -/
theorem parseTag_segment_rule (s : String) (h : ',' ∉ s.data) :
    ('=' ∉ s.data → parseTag s = [{ name := s, params := [] }]) ∧
    ('=' ∈ s.data → ∃ name param : String, s = name ++ "=" ++ param ∧ '=' ∉ name.data ∧
      parseTag s = [{ name := name, params := [param] }]) ∧
    (∀ (t : String) (r : validationRule), r ∈ parseTag t → r.params.length ≤ 1) := by
  have hs : parseTag s = [parsePart s] := by
    rw [parseTag_eq_map]
    simp [stringsSplit, splitChars_of_not_mem _ _ h]
  refine ⟨?_, ?_, ?_⟩
  · intro he
    rw [hs, parsePart_of_not_mem s he]
  · intro he
    obtain ⟨name, param, h1, h2, h3⟩ := parsePart_of_mem s he
    exact ⟨name, param, h1, h2, by rw [hs, h3]⟩
  · intro t r hr
    rw [parseTag_eq_map] at hr
    obtain ⟨part, _, rfl⟩ := List.mem_map.mp hr
    exact parsePart_params_length part

/-- Witness of C4 at the segment `gt=a=b`, which has no comma and two `=`. -/
theorem parseTag_segment_rule_witness :
    ',' ∉ "gt=a=b".data ∧
    (∃ name param : String, "gt=a=b" = name ++ "=" ++ param ∧ '=' ∉ name.data ∧
      parseTag "gt=a=b" = [{ name := name, params := [param] }]) :=
  ⟨by decide, (parseTag_segment_rule "gt=a=b" (by decide)).2.1 (by decide)⟩

/-! ### The lookup -/

theorem fieldMapLoop_ok (Content : List Node) (i : Nat) (fieldMap : FieldMap) :
    ∃ fm, fieldMapLoop Content i fieldMap = .ok fm := by
  induction i, fieldMap using fieldMapLoop.induct Content with
  | case1 i fieldMap h keyNode valueNode hk hv ih =>
    rw [fieldMapLoop]
    simp only [h, if_true, hk, hv]
    exact ih
  | case2 i fieldMap h hno =>
    exfalso
    have h1 : i < Content.length := by omega
    have h2 : i + 1 < Content.length := by omega
    exact hno _ _ (List.getElem?_eq_getElem h1) (List.getElem?_eq_getElem h2)
  | case3 i fieldMap h =>
    rw [fieldMapLoop]
    simp [h]

theorem buildFieldMap_ok (node : Node) : ∃ fm, buildFieldMap node = .ok fm := by
  unfold buildFieldMap
  split
  · exact fieldMapLoop_ok _ _ _
  · exact ⟨_, rfl⟩

theorem buildFieldMap_eq (node : Node) : buildFieldMap node = .ok (fieldLookup node) := by
  obtain ⟨fm, h⟩ := buildFieldMap_ok node
  rw [h]
  congr 1
  funext key
  simp [fieldLookup, h]

/-! ### Rule dispatch -/

theorem applyValidationRulesLoop_acc (validators : Registry) (value : Value)
    (yamlTag : String) (node : Node) (rules : List validationRule) (errors : List GoError) :
    applyValidationRulesLoop validators value yamlTag node rules errors =
      (applyValidationRulesLoop validators value yamlTag node rules []).map
        (fun errs => errors ++ errs) := by
  induction rules generalizing errors with
  | nil => simp [applyValidationRulesLoop, Except.map]
  | cons rule rest ih =>
    simp only [applyValidationRulesLoop]
    cases hv : validators rule.name with
    | none => simpa using ih errors
    | some validator =>
      simp only []
      cases hr : validator value yamlTag node (firstParam rule) with
      | error p => simp [Except.map]
      | ok err =>
        cases err with
        | none => simpa using ih errors
        | some e =>
          simp only []
          rw [ih (errors ++ [e]), ih ([] ++ [e])]
          cases applyValidationRulesLoop validators value yamlTag node rest [] <;>
            simp [Except.map]

theorem applyValidationRulesLoop_eq_mapM (validators : Registry) (value : Value)
    (yamlTag : String) (node : Node) (rules : List validationRule) :
    applyValidationRulesLoop validators value yamlTag node rules [] =
      (rules.mapM (fun rule : validationRule =>
        match validators rule.name with
        | some validator => validator value yamlTag node (firstParam rule)
        | none => .ok none)).map List.reduceOption := by
  induction rules with
  | nil =>
    rw [List.mapM_nil]
    rfl
  | cons rule rest ih =>
    rw [List.mapM_cons]
    simp only [applyValidationRulesLoop]
    generalize List.mapM (fun rule : validationRule =>
        match validators rule.name with
        | some validator => validator value yamlTag node (firstParam rule)
        | none => Except.ok none) rest = tail at ih ⊢
    have hacc := fun e : GoError =>
      applyValidationRulesLoop_acc validators value yamlTag node rest [e]
    simp only [ih] at hacc ⊢
    cases hv : validators rule.name with
    | none =>
      cases tail <;> simp [Except.map, bind, Except.bind, pure, Except.pure]
    | some validator =>
      simp only []
      cases hr : validator value yamlTag node (firstParam rule) with
      | error p => simp [Except.map, bind, Except.bind]
      | ok err =>
        cases err <;> cases tail <;>
          simp [hacc, Except.map, bind, Except.bind, pure, Except.pure]

/-! ### The field loop -/

/-- Errors contributed by one field: what the loop body of `ValidateStruct`
appends for it. -/
theorem validateFieldsLoop_single (env : Env) (node : Node) (fieldMap : FieldMap)
    (field : StructField) (fieldValue : Value) :
    validateFieldsLoop env node fieldMap [(field, fieldValue)] [] =
      if field.Tag.Get "validate" = "" then .ok []
      else
        match fieldMap (effectiveName field) with
        | some childNode =>
          match (if env.isYAMLValueType field.Typ then fieldValue.FieldByName "Value"
                 else .ok fieldValue) with
          | .error p => .error p
          | .ok value =>
            applyValidationRules env.validators value (field.Tag.Get "validate")
              (effectiveName field) childNode
        | none =>
          .ok (if tagContainsRequired (field.Tag.Get "validate") then
            [missingError node (effectiveName field)] else []) := by
  simp only [validateFieldsLoop, effectiveName]
  by_cases ht : field.Tag.Get "validate" = ""
  · simp [ht]
  · simp only [ht, ne_eq, not_false_eq_true, if_true, if_false, List.nil_append]
    generalize (if field.Tag.Get "yaml" = "" then field.Name else field.Tag.Get "yaml") = name
    cases fieldMap name with
    | none =>
      simp only []
      split <;> rfl
    | some childNode =>
      simp only []
      generalize (if env.isYAMLValueType field.Typ then fieldValue.FieldByName "Value"
        else Except.ok fieldValue) = unwrapped
      cases unwrapped with
      | error p => rfl
      | ok value =>
        simp only []
        cases applyValidationRules env.validators value (field.Tag.Get "validate")
          name childNode <;> rfl

theorem validateFieldsLoop_cons (env : Env) (node : Node) (fieldMap : FieldMap)
    (f : StructField × Value) (rest : List (StructField × Value)) (errors : List GoError) :
    validateFieldsLoop env node fieldMap (f :: rest) errors =
      match validateFieldsLoop env node fieldMap [f] [] with
      | .error p => .error p
      | .ok errs => validateFieldsLoop env node fieldMap rest (errors ++ errs) := by
  obtain ⟨field, fieldValue⟩ := f
  simp only [validateFieldsLoop]
  by_cases ht : field.Tag.Get "validate" = ""
  · simp [ht]
  · simp only [ht, ne_eq, not_false_eq_true, if_true, if_false, List.nil_append]
    generalize (if field.Tag.Get "yaml" = "" then field.Name else field.Tag.Get "yaml") = name
    cases fieldMap name with
    | none =>
      simp only []
      split <;> simp
    | some childNode =>
      simp only []
      generalize (if env.isYAMLValueType field.Typ then fieldValue.FieldByName "Value"
        else Except.ok fieldValue) = unwrapped
      cases unwrapped with
      | error p => rfl
      | ok value =>
        simp only []
        cases applyValidationRules env.validators value (field.Tag.Get "validate")
          name childNode <;> rfl

theorem validateFieldsLoop_acc (env : Env) (node : Node) (fieldMap : FieldMap)
    (fields : List (StructField × Value)) (errors : List GoError) :
    validateFieldsLoop env node fieldMap fields errors =
      (validateFieldsLoop env node fieldMap fields []).map (fun errs => errors ++ errs) := by
  induction fields generalizing errors with
  | nil => simp [validateFieldsLoop, Except.map]
  | cons f rest ih =>
    rw [validateFieldsLoop_cons env node fieldMap f rest errors,
      validateFieldsLoop_cons env node fieldMap f rest []]
    cases validateFieldsLoop env node fieldMap [f] [] with
    | error p => simp [Except.map]
    | ok errs =>
      simp only []
      rw [ih (errors ++ errs), ih ([] ++ errs)]
      cases validateFieldsLoop env node fieldMap rest [] <;> simp [Except.map]

theorem validateFieldsLoop_append (env : Env) (node : Node) (fieldMap : FieldMap)
    (xs ys : List (StructField × Value)) :
    validateFieldsLoop env node fieldMap (xs ++ ys) [] =
      (validateFieldsLoop env node fieldMap xs []).bind (fun a =>
        (validateFieldsLoop env node fieldMap ys []).map (fun b => a ++ b)) := by
  induction xs with
  | nil =>
    rw [List.nil_append]
    cases validateFieldsLoop env node fieldMap ys [] <;>
      simp [validateFieldsLoop, Except.bind, Except.map]
  | cons f rest ih =>
    rw [List.cons_append, validateFieldsLoop_cons env node fieldMap f (rest ++ ys) [],
      validateFieldsLoop_cons env node fieldMap f rest []]
    cases validateFieldsLoop env node fieldMap [f] [] with
    | error p => simp [Except.bind]
    | ok errs =>
      simp only []
      rw [validateFieldsLoop_acc env node fieldMap (rest ++ ys) ([] ++ errs),
        validateFieldsLoop_acc env node fieldMap rest ([] ++ errs), ih]
      cases validateFieldsLoop env node fieldMap rest [] with
      | error p => simp [Except.bind, Except.map]
      | ok a =>
        cases validateFieldsLoop env node fieldMap ys [] <;>
          simp [Except.bind, Except.map]

theorem ValidateStruct_struct (env : Env) (t : GoType) (fields : List (StructField × Value))
    (node : Node) :
    ValidateStruct env (.struct t fields) node =
      validateFieldsLoop env node (fieldLookup node) fields [] := by
  simp [ValidateStruct, buildFieldMap_eq]

theorem validateFieldsLoop_eq_mapM (env : Env) (node : Node) (fieldMap : FieldMap)
    (fields : List (StructField × Value)) :
    validateFieldsLoop env node fieldMap fields [] =
      (fields.mapM (fun f => validateFieldsLoop env node fieldMap [f] [])).map
        List.flatten := by
  induction fields with
  | nil =>
    rw [List.mapM_nil]
    rfl
  | cons f rest ih =>
    rw [List.mapM_cons, validateFieldsLoop_cons env node fieldMap f rest []]
    cases validateFieldsLoop env node fieldMap [f] [] with
    | error p => simp [Except.map, bind, Except.bind]
    | ok errs =>
      simp only []
      rw [validateFieldsLoop_acc env node fieldMap rest ([] ++ errs), ih]
      cases List.mapM (fun f => validateFieldsLoop env node fieldMap [f] []) rest <;>
        simp [Except.map, bind, Except.bind, pure, Except.pure]

/-! ### Evaluation on the test documents -/

theorem fieldLookup_document1 (key : String) :
    fieldLookup document1 key =
      if key = "created_at" then some (scalarNode 5 13 "2023-06-21T15:00:00Z")
      else if key = "email" then some (scalarNode 4 8 "john.doe@example.com")
      else if key = "age" then some (scalarNode 3 6 "30")
      else if key = "name" then some (scalarNode 2 7 "John Doe")
      else none := by
  simp [fieldLookup, buildFieldMap, document1, fieldMapLoop, FieldMap.set, scalarNode]

theorem fieldLookup_document2 (key : String) :
    fieldLookup document2 key =
      if key = "created_at" then some (scalarNode 4 13 "2023-06-21T15:00:00Z")
      else if key = "email" then some (scalarNode 3 8 "john.doe@example.com")
      else if key = "age" then some (scalarNode 2 6 "16")
      else none := by
  simp [fieldLookup, buildFieldMap, document2, fieldMapLoop, FieldMap.set, scalarNode]

/-! ### Aggregation of the errors -/

theorem tagContainsRequiredLoop_iff (rules : List validationRule) :
    tagContainsRequiredLoop rules = true ↔ ∃ r ∈ rules, r.name = "required" := by
  induction rules with
  | nil => simp [tagContainsRequiredLoop]
  | cons rule rest ih =>
    by_cases h : rule.name = "required"
    · simp [tagContainsRequiredLoop, h]
    · simp [tagContainsRequiredLoop, h, ih]

theorem tagContainsRequired_iff (tag : String) :
    tagContainsRequired tag = true ↔ ∃ r ∈ parseTag tag, r.name = "required" :=
  tagContainsRequiredLoop_iff (parseTag tag)

theorem ValidateStruct_eq_mapM (env : Env) (t : GoType)
    (fields : List (StructField × Value)) (node : Node) :
    ValidateStruct env (.struct t fields) node =
      (fields.mapM (fun f => ValidateStruct env (.struct t [f]) node)).map List.flatten := by
  simp only [ValidateStruct_struct]
  exact validateFieldsLoop_eq_mapM env node (fieldLookup node) fields

/-- C1: for a struct target, `ValidateStruct` returns the concatenation, in
field declaration order, of the errors of each field taken alone (a panic of a
validator being passed on); a field without `validate` tag has none; and for a
tagged field present in the document these are the non-nil results of the
validators of its rules, in rule order, the rules without registered validator
giving nothing. Errors of earlier fields or rules do not cut the sequence. -/
theorem ValidateStruct_concat (env : Env) (t : GoType)
    (fields : List (StructField × Value)) (node : Node) :
    ValidateStruct env (.struct t fields) node =
      (fields.mapM (fun f => ValidateStruct env (.struct t [f]) node)).map List.flatten ∧
    (∀ (field : StructField) (fieldValue : Value), field.Tag.Get "validate" = "" →
      ValidateStruct env (.struct t [(field, fieldValue)]) node = .ok []) ∧
    (∀ (field : StructField) (fieldValue : Value) (childNode : Node),
      field.Tag.Get "validate" ≠ "" →
      fieldLookup node (effectiveName field) = some childNode →
      ValidateStruct env (.struct t [(field, fieldValue)]) node =
        (if env.isYAMLValueType field.Typ then fieldValue.FieldByName "Value"
         else .ok fieldValue).bind (fun value =>
          ((parseTag (field.Tag.Get "validate")).mapM (fun rule : validationRule =>
            match env.validators rule.name with
            | some validator => validator value (effectiveName field) childNode (firstParam rule)
            | none => .ok none)).map List.reduceOption)) := by
  refine ⟨ValidateStruct_eq_mapM env t fields node, ?_, ?_⟩
  · intro field fieldValue htag
    rw [ValidateStruct_struct, validateFieldsLoop_single]
    simp [htag]
  · intro field fieldValue childNode htag hlook
    rw [ValidateStruct_struct, validateFieldsLoop_single]
    simp only [htag, if_false, hlook]
    cases (if env.isYAMLValueType field.Typ then fieldValue.FieldByName "Value"
      else Except.ok fieldValue) with
    | error p => rfl
    | ok value =>
      simp only [Except.bind, applyValidationRules]
      exact applyValidationRulesLoop_eq_mapM env.validators value (effectiveName field)
        childNode (parseTag (field.Tag.Get "validate"))

/-- Witness of C1 on the second test document: the `age` field, tagged and
present, taken alone. -/
theorem ValidateStruct_concat_witness :
    personAge.Tag.Get "validate" ≠ "" ∧
    fieldLookup document2 (effectiveName personAge) = some (scalarNode 2 6 "16") ∧
    ValidateStruct testEnv (.struct { Name := "yaml_test.Person" }
        [(personAge, .int { Name := "int" } 16)]) document2 =
      (if testEnv.isYAMLValueType personAge.Typ then
          (Value.int { Name := "int" } 16).FieldByName "Value"
       else .ok (Value.int { Name := "int" } 16)).bind (fun value =>
        ((parseTag (personAge.Tag.Get "validate")).mapM (fun rule : validationRule =>
          match testEnv.validators rule.name with
          | some validator =>
            validator value (effectiveName personAge) (scalarNode 2 6 "16") (firstParam rule)
          | none => .ok none)).map List.reduceOption) :=
  ⟨by decide, by rw [fieldLookup_document2]; rfl,
   (ValidateStruct_concat testEnv { Name := "yaml_test.Person" } [] document2).2.2
     personAge (.int { Name := "int" } 16) (scalarNode 2 6 "16") (by decide)
     (by rw [fieldLookup_document2]; rfl)⟩

/-- C2: a validate-tagged field whose effective name is absent from the lookup
contributes, between the errors of the fields before and after it, exactly one
error when its tag contains a rule named `required` (the container node's line
and column, message `required field '<name>' is missing`) and nothing
otherwise; this holds for every registry, so no validator is called for it. -/
theorem ValidateStruct_missing_field (env : Env) (t : GoType)
    (before after : List (StructField × Value)) (field : StructField) (fieldValue : Value)
    (node : Node) (htag : field.Tag.Get "validate" ≠ "")
    (habsent : fieldLookup node (effectiveName field) = none) :
    ((∃ r ∈ parseTag (field.Tag.Get "validate"), r.name = "required") →
      ValidateStruct env (.struct t (before ++ (field, fieldValue) :: after)) node =
        (ValidateStruct env (.struct t before) node).bind (fun a =>
          (ValidateStruct env (.struct t after) node).map (fun b =>
            a ++ [GoError.CustomError node.Line node.Column
              ("required field '" ++ effectiveName field ++ "' is missing")] ++ b))) ∧
    ((¬ ∃ r ∈ parseTag (field.Tag.Get "validate"), r.name = "required") →
      ValidateStruct env (.struct t (before ++ (field, fieldValue) :: after)) node =
        (ValidateStruct env (.struct t before) node).bind (fun a =>
          (ValidateStruct env (.struct t after) node).map (fun b => a ++ b))) := by
  have hsingle := validateFieldsLoop_single env node (fieldLookup node) field fieldValue
  simp only [htag, if_false, habsent] at hsingle
  have hcons := validateFieldsLoop_cons env node (fieldLookup node) (field, fieldValue) after []
  rw [hsingle] at hcons
  simp only [List.nil_append] at hcons
  simp only [ValidateStruct_struct, validateFieldsLoop_append, hcons]
  constructor
  · intro hreq
    rw [if_pos ((tagContainsRequired_iff _).2 hreq),
      validateFieldsLoop_acc env node (fieldLookup node) after
        [missingError node (effectiveName field)]]
    cases validateFieldsLoop env node (fieldLookup node) before [] with
    | error p => rfl
    | ok a =>
      cases validateFieldsLoop env node (fieldLookup node) after [] <;>
        simp [Except.bind, Except.map, missingError]
  · intro hreq
    rw [if_neg (fun h => hreq ((tagContainsRequired_iff _).1 h))]

/-- Witness of C2 on the second test document, with a registry whose validators
all panic: the missing field `name`, whose tag is `required`. -/
theorem ValidateStruct_missing_field_witness :
    personName.Tag.Get "validate" ≠ "" ∧
    fieldLookup document2 (effectiveName personName) = none ∧
    (∃ r ∈ parseTag (personName.Tag.Get "validate"), r.name = "required") ∧
    ValidateStruct panickingEnv (.struct { Name := "yaml_test.Person" }
        ([] ++ (personName, .str { Name := "string" } "") :: [])) document2 =
      (ValidateStruct panickingEnv (.struct { Name := "yaml_test.Person" } []) document2).bind
        (fun a =>
          (ValidateStruct panickingEnv (.struct { Name := "yaml_test.Person" } []) document2).map
            (fun b => a ++ [GoError.CustomError document2.Line document2.Column
              ("required field '" ++ effectiveName personName ++ "' is missing")] ++ b)) :=
  ⟨by decide, by rw [fieldLookup_document2]; rfl, by decide,
   (ValidateStruct_missing_field panickingEnv { Name := "yaml_test.Person" } [] []
     personName (.str { Name := "string" } "") document2 (by decide)
     (by rw [fieldLookup_document2]; rfl)).1 (by decide)⟩

/-! ### The built-in validators -/

theorem goLen_eq_zero (s : String) : goLen s = 0 ↔ s = "" := by
  obtain ⟨l⟩ := s
  cases l with
  | nil => simp [goLen, String.utf8ByteSize, String.utf8ByteSize.go]
  | cons c cs =>
    have hc := Char.utf8Size_pos c
    simp only [goLen, String.utf8ByteSize, String.utf8ByteSize.go]
    constructor
    · omega
    · intro h
      exact absurd (congrArg String.data h) (by simp)

theorem isEmpty_eq (value : Value) :
    isEmpty value = (zeroOrEmpty value && !value.isComplex) := by
  cases value with
  | str t s => simp [isEmpty, zeroOrEmpty, Value.isComplex, goLen_eq_zero]
  | slice t len => cases len <;> simp [isEmpty, zeroOrEmpty, Value.isComplex]
  | map t len => cases len <;> simp [isEmpty, zeroOrEmpty, Value.isComplex]
  | bool t b => cases b <;> simp [isEmpty, zeroOrEmpty, Value.isComplex]
  | _ => simp [isEmpty, zeroOrEmpty, Value.isComplex]

/-- C5, counterexample: the complex number zero is a zero number, yet
`validateRequired` returns no error for it. -/
theorem validateRequired_complex_zero :
    zeroOrEmpty (Value.complex { Name := "complex128" } 0 0) = true ∧
    validateRequired (Value.complex { Name := "complex128" } 0 0) "z"
      (scalarNode 1 4 "0") "" = .ok none := by
  decide

/-- C5, amended: `validateRequired` never panics; it returns exactly one error,
the `CustomError` at the node's line and column with message
`field '<name>' is required`, when the value is zero or empty and not of a
complex kind (empty string, array of length 0, nil or empty slice or map,
`false`, zero signed or unsigned integer, floating-point zero, nil pointer or
interface), and no error for every other value. -/
theorem validateRequired_zero_or_empty (value : Value) (yamlTag : String) (node : Node)
    (param : String) :
    validateRequired value yamlTag node param =
      .ok (if zeroOrEmpty value ∧ ¬ value.isComplex then
        some (GoError.CustomError node.Line node.Column ("field '" ++ yamlTag ++ "' is required"))
      else none) := by
  simp only [validateRequired, isEmpty_eq]
  by_cases h : zeroOrEmpty value = true <;> by_cases h2 : value.isComplex = true <;>
    simp [h, h2]

/-- On the signed integer kinds `validateGreaterThan` with a parameter that
parses as `n` returns an error exactly when the value is at most `n`. -/
theorem validateGreaterThan_int (param : String) (n : Int) (hparam : Atoi param = .ok n)
    (t : GoType) (v : Int) (yamlTag : String) (node : Node) :
    validateGreaterThan (.int t v) yamlTag node param =
      .ok (if v ≤ n then
        some (GoError.CustomError node.Line node.Column
          ("field '" ++ yamlTag ++ "' must be greater than " ++ fmtInt n))
      else none) := by
  simp only [validateGreaterThan, hparam, Value.Int]
  split <;> rfl

/-- On every other kind `validateGreaterThan` with a parameter that parses
panics. -/
theorem validateGreaterThan_uint (param : String) (n : Int) (hparam : Atoi param = .ok n)
    (t : GoType) (u : Nat) (yamlTag : String) (node : Node) :
    ∃ p, validateGreaterThan (.uint t u) yamlTag node param = .error p := by
  simp [validateGreaterThan, hparam, Value.Int]

/-- C6, evaluated: with `gt=18` an `int` field holding 30 gives no error and one
holding 16 or 18 gives the `CustomError` naming field and threshold at the
node's position, but a `uint` field, holding 16 or 30, makes
`validateGreaterThan` panic, whereas `isEmpty` handles the unsigned kinds. -/
theorem validateGreaterThan_gt18 :
    Atoi "18" = .ok 18 ∧
    validateGreaterThan (.int { Name := "int" } 30) "age" (scalarNode 3 6 "30") "18" =
      .ok none ∧
    validateGreaterThan (.int { Name := "int" } 16) "age" (scalarNode 2 6 "16") "18" =
      .ok (some (.CustomError 2 6 "field 'age' must be greater than 18")) ∧
    validateGreaterThan (.int { Name := "int" } 18) "age" (scalarNode 2 6 "18") "18" =
      .ok (some (.CustomError 2 6 "field 'age' must be greater than 18")) ∧
    validateGreaterThan (.uint { Name := "uint" } 16) "age" (scalarNode 2 6 "16") "18" =
      .error "reflect: call of reflect.Value.Int on a Value of another kind" ∧
    validateGreaterThan (.uint { Name := "uint" } 30) "age" (scalarNode 3 6 "30") "18" =
      .error "reflect: call of reflect.Value.Int on a Value of another kind" ∧
    isEmpty (.uint { Name := "uint" } 0) = true ∧
    isEmpty (.uint { Name := "uint" } 30) = false := by
  decide

theorem applyValidationRulesLoop_append (validators : Registry) (value : Value)
    (yamlTag : String) (node : Node) (before after : List validationRule) :
    applyValidationRulesLoop validators value yamlTag node (before ++ after) [] =
      (applyValidationRulesLoop validators value yamlTag node before []).bind (fun a =>
        (applyValidationRulesLoop validators value yamlTag node after []).map
          (fun b => a ++ b)) := by
  simp only [applyValidationRulesLoop_eq_mapM, List.mapM_append]
  cases List.mapM (fun rule : validationRule =>
      match validators rule.name with
      | some validator => validator value yamlTag node (firstParam rule)
      | none => Except.ok none) before with
  | error p => simp [Except.map, Except.bind, bind]
  | ok a =>
    cases List.mapM (fun rule : validationRule =>
        match validators rule.name with
        | some validator => validator value yamlTag node (firstParam rule)
        | none => Except.ok none) after <;>
      simp [Except.map, Except.bind, bind, pure, Except.pure, List.reduceOption_append]

theorem Atoi_error_not_custom (param : String) (e : GoError) (h : Atoi param = .error e) :
    e = .NumError "Atoi" param .ErrSyntax ∨ e = .NumError "Atoi" param .ErrRange := by
  unfold Atoi at h
  cases hp : parseIntChars param.data with
  | ok n => simp [hp] at h
  | error k =>
    simp only [hp, Except.error.injEq] at h
    subst h
    cases k <;> simp

theorem fieldLookup_document2_fun :
    fieldLookup document2 = fun key =>
      if key = "created_at" then some (scalarNode 4 13 "2023-06-21T15:00:00Z")
      else if key = "email" then some (scalarNode 3 8 "john.doe@example.com")
      else if key = "age" then some (scalarNode 2 6 "16")
      else none :=
  funext fieldLookup_document2

theorem fieldLookup_document1_fun :
    fieldLookup document1 = fun key =>
      if key = "created_at" then some (scalarNode 5 13 "2023-06-21T15:00:00Z")
      else if key = "email" then some (scalarNode 4 8 "john.doe@example.com")
      else if key = "age" then some (scalarNode 3 6 "30")
      else if key = "name" then some (scalarNode 2 7 "John Doe")
      else none :=
  funext fieldLookup_document1

/-- C7: when `strconv.Atoi` rejects the parameter, `validateGreaterThan`
returns that `*strconv.NumError` itself, which is no `CustomError`, for every
field value, without panicking; the bare rule `gt` is such a case, its parameter
being empty. In the rule loop the error takes its place between the errors of
the rules before and after, which are all still applied; on the second test
document a struct with the missing `name` and an `age` tagged `gt=abc,gt=18`
gives the missing-field error, the parse error and the threshold error. -/
theorem validateGreaterThan_bad_param (param : String) (e : GoError)
    (hparam : Atoi param = .error e) :
    (∀ (value : Value) (yamlTag : String) (node : Node),
      validateGreaterThan value yamlTag node param = .ok (some e)) ∧
    e.isCustomError = false ∧
    (firstParam (parsePart "gt") = "" ∧
      Atoi "" = .error (.NumError "Atoi" "" .ErrSyntax)) ∧
    (∀ (validators : Registry) (value : Value) (yamlTag : String) (node : Node)
        (rule : validationRule) (before after : List validationRule),
      validators rule.name = some validateGreaterThan → firstParam rule = param →
      applyValidationRulesLoop validators value yamlTag node (before ++ rule :: after) [] =
        (applyValidationRulesLoop validators value yamlTag node before []).bind (fun a =>
          (applyValidationRulesLoop validators value yamlTag node after []).map
            (fun b => a ++ [e] ++ b))) ∧
    ValidateStruct testEnv (.struct { Name := "yaml_test.Person" }
        [(personName, .str { Name := "string" } ""),
         (ageBadParam, .int { Name := "int" } 16)]) document2 =
      .ok [.CustomError 2 1 "required field 'name' is missing",
           .NumError "Atoi" "abc" .ErrSyntax,
           .CustomError 2 6 "field 'age' must be greater than 18"] := by
  have hgt : ∀ (value : Value) (yamlTag : String) (node : Node),
      validateGreaterThan value yamlTag node param = .ok (some e) := by
    intro value yamlTag node
    simp [validateGreaterThan, hparam]
  refine ⟨hgt, ?_, ⟨by decide, by decide⟩, ?_, ?_⟩
  · rcases Atoi_error_not_custom param e hparam with h | h <;> subst h <;> rfl
  · intro validators value yamlTag node rule before after hv hp
    rw [applyValidationRulesLoop_append]
    have hstep : applyValidationRulesLoop validators value yamlTag node (rule :: after) [] =
        (applyValidationRulesLoop validators value yamlTag node after []).map
          (fun b => [e] ++ b) := by
      simp only [applyValidationRulesLoop, hv, hp, hgt, List.nil_append]
      exact applyValidationRulesLoop_acc validators value yamlTag node after [e]
    rw [hstep]
    cases applyValidationRulesLoop validators value yamlTag node before [] with
    | error p => rfl
    | ok a =>
      cases applyValidationRulesLoop validators value yamlTag node after [] <;>
        simp [Except.bind, Except.map]
  · rw [ValidateStruct_struct, fieldLookup_document2_fun]
    decide

/-- Witness of C7 at the parameter `abc`. -/
theorem validateGreaterThan_bad_param_witness :
    Atoi "abc" = .error (.NumError "Atoi" "abc" .ErrSyntax) ∧
    (∀ (value : Value) (yamlTag : String) (node : Node),
      validateGreaterThan value yamlTag node "abc" =
        .ok (some (.NumError "Atoi" "abc" .ErrSyntax))) :=
  ⟨by decide,
   (validateGreaterThan_bad_param "abc" (.NumError "Atoi" "abc" .ErrSyntax) (by decide)).1⟩

/-- C9: a rule whose name has no validator in the registry adds nothing to the
error list and the loop goes on with the next rule, so the result is that of the
rule list without it and the rules after it are still applied; a tag whose rules
are all unregistered yields no error. With the registry of `init`, `email` is
unregistered: the present field tagged `email` of the test contributes nothing,
and in `email,gt=18` the rule `gt` is still applied. -/
theorem applyValidationRules_unregistered (validators : Registry) (value : Value)
    (yamlTag : String) (node : Node) :
    (∀ (rule : validationRule) (rest : List validationRule) (errors : List GoError),
      validators rule.name = none →
      applyValidationRulesLoop validators value yamlTag node (rule :: rest) errors =
        applyValidationRulesLoop validators value yamlTag node rest errors) ∧
    (∀ (rule : validationRule) (before after : List validationRule),
      validators rule.name = none →
      applyValidationRulesLoop validators value yamlTag node (before ++ rule :: after) [] =
        applyValidationRulesLoop validators value yamlTag node (before ++ after) []) ∧
    (∀ tag : String, (∀ r ∈ parseTag tag, validators r.name = none) →
      applyValidationRules validators value tag yamlTag node = .ok []) ∧
    (∀ timeParse : String → String → Bool, init timeParse "email" = none) ∧
    ValidateStruct testEnv (.struct { Name := "yaml_test.Person" }
        [(personEmail, .str { Name := "string" } "john.doe@example.com")]) document1 =
      .ok [] ∧
    applyValidationRules (init sampleTimeParse) (.int { Name := "int" } 16) "email,gt=18"
        "age" (scalarNode 2 6 "16") =
      .ok [.CustomError 2 6 "field 'age' must be greater than 18"] := by
  have hskip : ∀ (rule : validationRule) (rest : List validationRule) (errors : List GoError),
      validators rule.name = none →
      applyValidationRulesLoop validators value yamlTag node (rule :: rest) errors =
        applyValidationRulesLoop validators value yamlTag node rest errors := by
    intro rule rest errors hnone
    simp only [applyValidationRulesLoop, hnone]
  refine ⟨hskip, ?_, ?_, ?_, ?_, by decide⟩
  · intro rule before after hnone
    rw [applyValidationRulesLoop_append, applyValidationRulesLoop_append,
      hskip rule after [] hnone]
  · intro tag hall
    unfold applyValidationRules
    generalize parseTag tag = rules at hall
    induction rules with
    | nil => rfl
    | cons r rest ih =>
      rw [hskip r rest [] (hall r (by simp))]
      exact ih (fun r hr => hall r (by simp [hr]))
  · intro timeParse
    rfl
  · rw [ValidateStruct_struct, fieldLookup_document1_fun]
    decide

/-- Witness of C9 with the registry of `init` and the tag `email` of the test. -/
theorem applyValidationRules_unregistered_witness :
    (∀ r ∈ parseTag "email", init sampleTimeParse r.name = none) ∧
    applyValidationRules (init sampleTimeParse) (.str { Name := "string" } "john.doe@example.com")
      "email" "email" (scalarNode 4 8 "john.doe@example.com") = .ok [] :=
  ⟨by
    intro r hr
    have hp : parseTag "email" = [{ name := "email", params := [] }] := by decide
    rw [hp, List.mem_singleton] at hr
    subst hr
    rfl,
   (applyValidationRules_unregistered (init sampleTimeParse)
      (.str { Name := "string" } "john.doe@example.com") "email"
      (scalarNode 4 8 "john.doe@example.com")).2.2.1 "email" (by
        intro r hr
        have hp : parseTag "email" = [{ name := "email", params := [] }] := by decide
        rw [hp, List.mem_singleton] at hr
        subst hr
        rfl)⟩

/-! ### Counting the errors -/

theorem mapM_ok_forall₂ {α β : Type} (f : α → Go β) (xs : List α) (ys : List β)
    (h : xs.mapM f = .ok ys) : List.Forall₂ (fun x y => f x = .ok y) xs ys := by
  induction xs generalizing ys with
  | nil =>
    rw [List.mapM_nil] at h
    cases h
    exact List.Forall₂.nil
  | cons x xs ih =>
    rw [List.mapM_cons] at h
    cases hx : f x with
    | error p =>
      rw [hx] at h
      cases h
    | ok y =>
      cases hxs : List.mapM f xs with
      | error p =>
        rw [hx, hxs] at h
        cases h
      | ok ys2 =>
        rw [hx, hxs] at h
        cases h
        exact List.Forall₂.cons hx (ih ys2 hxs)

theorem applyValidationRulesLoop_count (validators : Registry) (value : Value)
    (yamlTag : String) (node : Node) (rules : List validationRule) (errors res : List GoError)
    (h : applyValidationRulesLoop validators value yamlTag node rules errors = .ok res) :
    res.length =
      errors.length + (rules.filter (ruleFails validators value yamlTag node)).length := by
  induction rules generalizing errors with
  | nil =>
    simp only [applyValidationRulesLoop, Except.ok.injEq] at h
    subst h
    simp
  | cons rule rest ih =>
    simp only [applyValidationRulesLoop] at h
    cases hv : validators rule.name with
    | none =>
      rw [hv] at h
      have hf : ruleFails validators value yamlTag node rule = false := by
        simp [ruleFails, hv]
      rw [List.filter_cons, hf]
      exact ih errors h
    | some validator =>
      rw [hv] at h
      simp only [] at h
      cases hr : validator value yamlTag node (firstParam rule) with
      | error p =>
        rw [hr] at h
        cases h
      | ok err =>
        rw [hr] at h
        cases err with
        | none =>
          have hf : ruleFails validators value yamlTag node rule = false := by
            simp [ruleFails, hv, hr]
          rw [List.filter_cons, hf]
          exact ih errors h
        | some e0 =>
          have hf : ruleFails validators value yamlTag node rule = true := by
            simp [ruleFails, hv, hr]
          rw [List.filter_cons, hf, ih (errors ++ [e0]) h]
          simp only [List.length_append, List.length_cons, List.length_nil, if_true]
          omega

theorem single_field_violations (env : Env) (t : GoType) (field : StructField)
    (fieldValue : Value) (node : Node) (e : List GoError)
    (h : ValidateStruct env (.struct t [(field, fieldValue)]) node = .ok e) :
    e.length = violations env node (field, fieldValue) := by
  rw [ValidateStruct_struct, validateFieldsLoop_single] at h
  unfold violations
  by_cases htag : field.Tag.Get "validate" = ""
  · simp only [htag, if_true, Except.ok.injEq] at h ⊢
    subst h
    rfl
  · simp only [htag, if_false] at h ⊢
    cases hl : fieldLookup node (effectiveName field) with
    | none =>
      rw [hl] at h
      simp only [Except.ok.injEq] at h
      subst h
      by_cases hreq : tagContainsRequired (field.Tag.Get "validate") = true
      · have hex := (tagContainsRequired_iff _).1 hreq
        simp [hreq, hex]
      · have hex : ¬ ∃ r ∈ parseTag (field.Tag.Get "validate"), r.name = "required" :=
          fun h0 => hreq ((tagContainsRequired_iff _).2 h0)
        simp [hreq, hex]
    | some childNode =>
      rw [hl] at h
      simp only [] at h ⊢
      generalize (if env.isYAMLValueType field.Typ then fieldValue.FieldByName "Value"
        else Except.ok fieldValue) = unwrapped at h
      cases unwrapped with
      | error p => cases h
      | ok value =>
        simp only [] at h ⊢
        have := applyValidationRulesLoop_count _ _ _ _ _ [] e h
        simpa using this

theorem filter_pos_length_le_sum {α : Type} (g : α → Nat) (l : List α) :
    (l.filter (fun a => decide (0 < g a))).length ≤ (l.map g).sum ∧
    ((∀ a ∈ l, g a ≤ 1) → (l.map g).sum = (l.filter (fun a => decide (0 < g a))).length) := by
  induction l with
  | nil => simp
  | cons a rest ih =>
    by_cases ha : 0 < g a
    · simp only [List.filter_cons, ha, decide_True, if_true, List.length_cons, List.map_cons,
        List.sum_cons]
      refine ⟨by have := ih.1; omega, fun hone => ?_⟩
      have h1 := hone a (by simp)
      have h2 := ih.2 (fun b hb => hone b (by simp [hb]))
      omega
    · simp only [List.filter_cons, ha, decide_False, List.map_cons, List.sum_cons]
      refine ⟨by have := ih.1; simp; omega, fun hone => ?_⟩
      have h2 := ih.2 (fun b hb => hone b (by simp [hb]))
      simp
      omega

theorem namesField_quoted (name before after openQ closeQ : String) (line column : Int)
    (h1 : openQ = before ++ "'") (h2 : closeQ = "'" ++ after) :
    namesField name (.CustomError line column (openQ ++ name ++ closeQ)) := by
  refine ⟨before, after, ?_⟩
  rw [h1, h2]
  simp only [String.append_assoc]

theorem init_cases (timeParse : String → String → Bool) (name : String) (validator : Validator)
    (h : init timeParse name = some validator) :
    validator = validateDatetime timeParse ∨ validator = validateGreaterThan ∨
      validator = validateRequired := by
  simp only [init, RegisterValidator] at h
  split at h
  · exact Or.inl (Option.some.inj h).symm
  · split at h
    · exact Or.inr (Or.inl (Option.some.inj h).symm)
    · split at h
      · exact Or.inr (Or.inr (Option.some.inj h).symm)
      · cases h

theorem builtin_names_field (timeParse : String → String → Bool) (name : String)
    (validator : Validator) (h : init timeParse name = some validator) (value : Value)
    (yamlTag : String) (node : Node) (param : String) (e : GoError)
    (he : validator value yamlTag node param = .ok (some e)) (hc : e.isCustomError = true) :
    namesField yamlTag e := by
  rcases init_cases timeParse name validator h with rfl | rfl | rfl
  · simp only [validateDatetime] at he
    split at he
    · cases he
      exact namesField_quoted yamlTag "field " " has invalid datetime format" _ _ _ _
        (by decide) (by decide)
    · cases he
  · simp only [validateGreaterThan] at he
    split at he
    · cases he
      rename_i err hA
      rcases Atoi_error_not_custom param _ hA with h | h <;> rw [h] at hc <;> cases hc
    · rename_i threshold hA
      split at he
      · cases he
      · split at he
        · cases he
          refine ⟨"field ", " must be greater than " ++ fmtInt threshold, ?_⟩
          have h1 : "field '" = "field " ++ "'" := by decide
          have h2 : "' must be greater than " = "'" ++ " must be greater than " := by decide
          rw [h1, h2]
          simp only [String.append_assoc]
        · cases he
  · simp only [validateRequired] at he
    split at he
    · cases he
      exact namesField_quoted yamlTag "field " " is required" _ _ _ _ (by decide) (by decide)
    · cases he

theorem applyValidationRulesLoop_names_field (timeParse : String → String → Bool)
    (value : Value) (yamlTag : String) (node : Node) (rules : List validationRule)
    (errors res : List GoError)
    (h : applyValidationRulesLoop (init timeParse) value yamlTag node rules errors = .ok res)
    (herrors : ∀ e ∈ errors, e.isCustomError = true → namesField yamlTag e) :
    ∀ e ∈ res, e.isCustomError = true → namesField yamlTag e := by
  induction rules generalizing errors with
  | nil =>
    simp only [applyValidationRulesLoop, Except.ok.injEq] at h
    subst h
    exact herrors
  | cons rule rest ih =>
    simp only [applyValidationRulesLoop] at h
    cases hv : init timeParse rule.name with
    | none =>
      rw [hv] at h
      exact ih errors h herrors
    | some validator =>
      rw [hv] at h
      simp only [] at h
      cases hr : validator value yamlTag node (firstParam rule) with
      | error p =>
        rw [hr] at h
        cases h
      | ok err =>
        rw [hr] at h
        cases err with
        | none => exact ih errors h herrors
        | some e0 =>
          refine ih (errors ++ [e0]) h ?_
          intro e he hc
          rcases List.mem_append.mp he with he | he
          · exact herrors e he hc
          · rw [List.mem_singleton] at he
            subst he
            exact builtin_names_field timeParse rule.name validator hv value yamlTag node
              (firstParam rule) e hr hc

theorem single_field_names_field (timeParse : String → String → Bool)
    (isYAMLValueType : GoType → Bool) (t : GoType) (field : StructField) (fieldValue : Value)
    (node : Node) (errs : List GoError)
    (h : ValidateStruct (defaultEnv timeParse isYAMLValueType)
      (.struct t [(field, fieldValue)]) node = .ok errs) :
    ∀ e ∈ errs, e.isCustomError = true → namesField (effectiveName field) e := by
  rw [ValidateStruct_struct, validateFieldsLoop_single] at h
  split at h
  · cases h
    simp
  · split at h
    · split at h
      · cases h
      · exact applyValidationRulesLoop_names_field timeParse _ _ _ _ [] errs h (by simp)
    · cases h
      intro e he hc
      split at he
      · rw [List.mem_singleton] at he
        subst he
        exact namesField_quoted _ "required field " " is missing" _ _ _ _
          (by decide) (by decide)
      · cases he

theorem fieldLookup_documentZero :
    fieldLookup documentZero = fun key =>
      if key = "age" then some (scalarNode 1 6 "0") else none := by
  funext key
  simp [fieldLookup, buildFieldMap, documentZero, fieldMapLoop, FieldMap.set, scalarNode]

/-- C8, counterexample: on the document `age: 0` the structure with the single
field `age` tagged `required,gt=18` has one tagged field, which is violated
(`M = 1`), and `ValidateStruct` yields two errors for it, one per failing rule;
and on the second test document the error of the rule `gt=abc` is a
`*strconv.NumError`, which holds the function name and the parameter but not
the name of the field. -/
theorem ValidateStruct_two_errors_one_field :
    violatedCount testEnv [(ageTwoRules, .int { Name := "int" } 0)] documentZero = 1 ∧
    ValidateStruct testEnv (.struct { Name := "T" } [(ageTwoRules, .int { Name := "int" } 0)])
        documentZero =
      .ok [.CustomError 1 6 "field 'age' is required",
           .CustomError 1 6 "field 'age' must be greater than 18"] ∧
    ValidateStruct testEnv (.struct { Name := "T" } [(ageBadParam, .int { Name := "int" } 16)])
        document2 =
      .ok [.NumError "Atoi" "abc" .ErrSyntax,
           .CustomError 2 6 "field 'age' must be greater than 18"] := by
  simp only [violatedCount, List.filter, fieldViolated, violations, ValidateStruct_struct,
    fieldLookup_documentZero, fieldLookup_document2_fun]
  decide

/-- C8, amended: when `ValidateStruct` returns, every field yields, in
declaration order, exactly as many errors as it has violations (failing rules
of a present field, one for a missing required field): every violated field
yields at least one error and no other field yields any. With `M` violated
fields the number of errors is therefore at least `M`, and exactly `M` when no
field has more than one violation. With the registry of `init`, every
`CustomError` among the errors of a field holds that field's document name, in
quotes, in its message. -/
theorem ValidateStruct_error_count (env : Env) (t : GoType)
    (fields : List (StructField × Value)) (node : Node) (errs : List GoError)
    (h : ValidateStruct env (.struct t fields) node = .ok errs) :
    (∃ perField : List (List GoError),
      List.Forall₂ (fun f e => ValidateStruct env (.struct t [f]) node = .ok e ∧
        e.length = violations env node f ∧ (e ≠ [] ↔ fieldViolated env node f = true))
        fields perField ∧
      errs = perField.flatten) ∧
    errs.length = (fields.map (violations env node)).sum ∧
    violatedCount env fields node ≤ errs.length ∧
    ((∀ f ∈ fields, violations env node f ≤ 1) →
      errs.length = violatedCount env fields node) ∧
    (∀ (timeParse : String → String → Bool) (isYAMLValueType : GoType → Bool),
      env = defaultEnv timeParse isYAMLValueType →
      ∀ (field : StructField) (fieldValue : Value) (e : List GoError),
        ValidateStruct env (.struct t [(field, fieldValue)]) node = .ok e →
        ∀ x ∈ e, x.isCustomError = true → namesField (effectiveName field) x) := by
  have hper : ∃ perField : List (List GoError),
      List.Forall₂ (fun f e => ValidateStruct env (.struct t [f]) node = .ok e ∧
        e.length = violations env node f ∧ (e ≠ [] ↔ fieldViolated env node f = true))
        fields perField ∧
      errs = perField.flatten := by
    rw [ValidateStruct_eq_mapM env t fields node] at h
    cases hm : List.mapM (fun f => ValidateStruct env (.struct t [f]) node) fields with
    | error p =>
      rw [hm] at h
      cases h
    | ok perField =>
      rw [hm] at h
      cases h
      refine ⟨perField, ?_, rfl⟩
      refine List.Forall₂.imp ?_ (mapM_ok_forall₂ _ fields perField hm)
      intro f e hfe
      obtain ⟨field, fieldValue⟩ := f
      have hlen := single_field_violations env t field fieldValue node e hfe
      refine ⟨hfe, hlen, ?_⟩
      simp only [fieldViolated, decide_eq_true_eq, ← hlen, ne_eq]
      cases e <;> simp
  have hsum : errs.length = (fields.map (violations env node)).sum := by
    obtain ⟨perField, hall, rfl⟩ := hper
    clear h
    induction hall with
    | nil => rfl
    | @cons f e fields perField hf _ ih =>
      rw [List.flatten_cons, List.length_append, List.map_cons, List.sum_cons, ih, hf.2.1]
  have hcount := filter_pos_length_le_sum (violations env node) fields
  refine ⟨hper, hsum, ?_, ?_, ?_⟩
  · rw [hsum]
    exact hcount.1
  · intro hone
    rw [hsum]
    exact hcount.2 hone
  · intro timeParse isYAMLValueType henv field fieldValue e he
    subst henv
    exact single_field_names_field timeParse isYAMLValueType t field fieldValue node e he

/-- Witness of C8, amended, on the document `age: 0` with three tagged fields:
`name` is missing and required, `age` fails both its rules, `created_at` is
absent and not required; two fields are violated and there are three errors. -/
theorem ValidateStruct_error_count_witness :
    ValidateStruct testEnv (.struct { Name := "T" } threeFieldsZero) documentZero =
      .ok [.CustomError 1 1 "required field 'name' is missing",
           .CustomError 1 6 "field 'age' is required",
           .CustomError 1 6 "field 'age' must be greater than 18"] ∧
    violatedCount testEnv threeFieldsZero documentZero = 2 ∧
    [GoError.CustomError 1 1 "required field 'name' is missing",
     GoError.CustomError 1 6 "field 'age' is required",
     GoError.CustomError 1 6 "field 'age' must be greater than 18"].length =
      (threeFieldsZero.map (violations testEnv documentZero)).sum ∧
    violatedCount testEnv threeFieldsZero documentZero ≤
      [GoError.CustomError 1 1 "required field 'name' is missing",
       GoError.CustomError 1 6 "field 'age' is required",
       GoError.CustomError 1 6 "field 'age' must be greater than 18"].length :=
  have h : ValidateStruct testEnv (.struct { Name := "T" } threeFieldsZero) documentZero =
      .ok [.CustomError 1 1 "required field 'name' is missing",
           .CustomError 1 6 "field 'age' is required",
           .CustomError 1 6 "field 'age' must be greater than 18"] := by
    rw [ValidateStruct_struct, fieldLookup_documentZero]
    decide
  have hM : violatedCount testEnv threeFieldsZero documentZero = 2 := by
    simp only [violatedCount, threeFieldsZero, List.filter, fieldViolated, violations,
      fieldLookup_documentZero]
    decide
  ⟨h, hM,
   (ValidateStruct_error_count testEnv { Name := "T" } threeFieldsZero documentZero _ h).2.1,
   (ValidateStruct_error_count testEnv { Name := "T" } threeFieldsZero documentZero _ h).2.2.1⟩

/-! ### End to end -/

theorem fieldLookup_documentA :
    fieldLookup documentA = fun key =>
      if key = "created_at" then some (scalarNode 3 13 "2023-06-21T15:00:00Z")
      else if key = "age" then some (scalarNode 2 6 "30")
      else if key = "name" then some (scalarNode 1 7 "John Doe")
      else none := by
  funext key
  simp [fieldLookup, buildFieldMap, documentA, fieldMapLoop, FieldMap.set, scalarNode]

theorem fieldLookup_documentB :
    fieldLookup documentB = fun key =>
      if key = "created_at" then some (scalarNode 2 13 "2023-06-21T15:00:00Z")
      else if key = "age" then some (scalarNode 1 6 "16")
      else none := by
  funext key
  simp [fieldLookup, buildFieldMap, documentB, fieldMapLoop, FieldMap.set, scalarNode]

theorem parsePart_required : parsePart "required" = { name := "required", params := [] } := by
  decide

theorem parsePart_gt18 : parsePart "gt=18" = { name := "gt", params := ["18"] } := by
  decide

theorem parsePart_datetime : parsePart "datetime=2006-01-02T15:04:05Z07:00" =
    { name := "datetime", params := ["2006-01-02T15:04:05Z07:00"] } := by
  decide

theorem parsePart_email : parsePart "email" = { name := "email", params := [] } := by
  decide

theorem parseTag_required : parseTag "required" = [{ name := "required", params := [] }] := by
  decide

theorem parseTag_gt18 : parseTag "gt=18" = [{ name := "gt", params := ["18"] }] := by
  decide

theorem parseTag_datetime : parseTag "datetime=2006-01-02T15:04:05Z07:00" =
    [{ name := "datetime", params := ["2006-01-02T15:04:05Z07:00"] }] := by
  decide

theorem parseTag_email : parseTag "email" = [{ name := "email", params := [] }] := by
  decide

theorem Atoi_18 : Atoi "18" = .ok 18 := by decide

/-- C10: with the registry of `init`, whenever `time.Parse` accepts
`2023-06-21T15:00:00Z` under the RFC 3339 layout and the types `string` and
`int` are not the boxed wrapper: the structure `name` (required), `age`
(`gt=18`), `created_at` (datetime) against the document with name `John Doe`,
age 30 and that timestamp yields no error; against the document with age 16 and
no `name` key it yields exactly two errors, first the missing-required-field
error for `name` at the position of the mapping node, then the threshold error
for `age` at the position of the age value node. The same holds for the four
fields and the two documents of the test. -/
theorem ValidateStruct_end_to_end (timeParse : String → String → Bool)
    (isYAMLValueType : GoType → Bool)
    (htime : timeParse "2006-01-02T15:04:05Z07:00" "2023-06-21T15:00:00Z" = true)
    (hstring : isYAMLValueType { Name := "string" } = false)
    (hint : isYAMLValueType { Name := "int" } = false) :
    ValidateStruct (defaultEnv timeParse isYAMLValueType)
        (person3 "John Doe" 30 "2023-06-21T15:00:00Z") documentA = .ok [] ∧
    ValidateStruct (defaultEnv timeParse isYAMLValueType)
        (person3 "" 16 "2023-06-21T15:00:00Z") documentB =
      .ok [.CustomError documentB.Line documentB.Column "required field 'name' is missing",
           .CustomError 1 6 "field 'age' must be greater than 18"] ∧
    ValidateStruct (defaultEnv timeParse isYAMLValueType)
        (person "John Doe" 30 "2023-06-21T15:00:00Z" "john.doe@example.com") document1 =
      .ok [] ∧
    ValidateStruct (defaultEnv timeParse isYAMLValueType)
        (person "" 16 "2023-06-21T15:00:00Z" "john.doe@example.com") document2 =
      .ok [.CustomError document2.Line document2.Column "required field 'name' is missing",
           .CustomError 2 6 "field 'age' must be greater than 18"] := by
  refine ⟨?_, ?_, ?_, ?_⟩
  · rw [person3, ValidateStruct_struct, fieldLookup_documentA]
    simp [validateFieldsLoop, personName, personAge, personCreatedAt, taggedField,
      StructTag.Get, defaultEnv, applyValidationRules, parseTag_required, parseTag_gt18,
      parseTag_datetime, parsePart_required, parsePart_gt18, parsePart_datetime,
      applyValidationRulesLoop, init, RegisterValidator, firstParam, validateRequired,
      validateGreaterThan, validateDatetime, Atoi_18, Value.Int, Value.Str, htime, hstring,
      hint, isEmpty, goLen_eq_zero, scalarNode]
  · rw [person3, ValidateStruct_struct, fieldLookup_documentB]
    simp [validateFieldsLoop, personName, personAge, personCreatedAt, taggedField,
      StructTag.Get, defaultEnv, applyValidationRules, parseTag_required, parseTag_gt18,
      parseTag_datetime, parsePart_required, parsePart_gt18, parsePart_datetime,
      applyValidationRulesLoop, init, RegisterValidator, firstParam, validateRequired,
      validateGreaterThan, validateDatetime, Atoi_18, Value.Int, Value.Str, htime, hstring,
      hint, isEmpty, goLen_eq_zero, scalarNode, tagContainsRequired, tagContainsRequiredLoop,
      missingError, documentB, fmtInt]
    decide
  · rw [person, ValidateStruct_struct, fieldLookup_document1_fun]
    simp [validateFieldsLoop, personName, personAge, personCreatedAt, personEmail, taggedField,
      StructTag.Get, defaultEnv, applyValidationRules, parseTag_required, parseTag_gt18,
      parseTag_datetime, parseTag_email, parsePart_required, parsePart_gt18,
      parsePart_datetime, parsePart_email,
      applyValidationRulesLoop, init, RegisterValidator, firstParam, validateRequired,
      validateGreaterThan, validateDatetime, Atoi_18, Value.Int, Value.Str, htime, hstring,
      hint, isEmpty, goLen_eq_zero, scalarNode]
  · rw [person, ValidateStruct_struct, fieldLookup_document2_fun]
    simp [validateFieldsLoop, personName, personAge, personCreatedAt, personEmail, taggedField,
      StructTag.Get, defaultEnv, applyValidationRules, parseTag_required, parseTag_gt18,
      parseTag_datetime, parseTag_email, parsePart_required, parsePart_gt18,
      parsePart_datetime, parsePart_email,
      applyValidationRulesLoop, init, RegisterValidator, firstParam, validateRequired,
      validateGreaterThan, validateDatetime, Atoi_18, Value.Int, Value.Str, htime, hstring,
      hint, isEmpty, goLen_eq_zero, scalarNode, tagContainsRequired, tagContainsRequiredLoop,
      missingError, document2, fmtInt]
    decide

/-- Witness of C10 with the sample `time.Parse` and no boxed wrapper type. -/
theorem ValidateStruct_end_to_end_witness :
    sampleTimeParse "2006-01-02T15:04:05Z07:00" "2023-06-21T15:00:00Z" = true ∧
    ValidateStruct testEnv (person3 "John Doe" 30 "2023-06-21T15:00:00Z") documentA = .ok [] ∧
    ValidateStruct testEnv (person3 "" 16 "2023-06-21T15:00:00Z") documentB =
      .ok [.CustomError 1 1 "required field 'name' is missing",
           .CustomError 1 6 "field 'age' must be greater than 18"] :=
  ⟨by decide,
   (ValidateStruct_end_to_end sampleTimeParse (fun _ => false) (by decide) rfl rfl).1,
   (ValidateStruct_end_to_end sampleTimeParse (fun _ => false) (by decide) rfl rfl).2.1⟩

/-! ### A node that is no mapping -/

theorem validateFieldsLoop_all_missing (env : Env) (node : Node) (fieldMap : FieldMap)
    (hempty : ∀ key, fieldMap key = none) (fields : List (StructField × Value)) :
    validateFieldsLoop env node fieldMap fields [] =
      .ok (fields.filterMap (fun f : StructField × Value =>
        if f.1.Tag.Get "validate" ≠ "" ∧
            (∃ r ∈ parseTag (f.1.Tag.Get "validate"), r.name = "required") then
          some (GoError.CustomError node.Line node.Column
            ("required field '" ++ effectiveName f.1 ++ "' is missing"))
        else none)) := by
  induction fields with
  | nil => rfl
  | cons f rest ih =>
    obtain ⟨field, fieldValue⟩ := f
    rw [validateFieldsLoop_cons, validateFieldsLoop_single, hempty, List.filterMap_cons]
    by_cases htag : field.Tag.Get "validate" = ""
    · simp only [htag, if_true, List.nil_append, ih]
      simp
    · simp only [htag, if_false]
      rw [validateFieldsLoop_acc, ih]
      by_cases hreq : tagContainsRequired (field.Tag.Get "validate") = true
      · have hex := (tagContainsRequired_iff _).1 hreq
        simp [hreq, hex, htag, Except.map, missingError]
      · have hex : ¬ ∃ r ∈ parseTag (field.Tag.Get "validate"), r.name = "required" :=
          fun h => hreq ((tagContainsRequired_iff _).2 h)
        simp [hreq, hex, Except.map]

/-- C11: when the kind of the node is not mapping, the lookup is empty whatever
the content of the node, and `ValidateStruct` on a struct returns, in
declaration order, exactly one error `required field '<name>' is missing` at
the line and column of the node itself for each field that has a `validate`
tag containing a rule named `required`, and nothing else. -/
theorem ValidateStruct_not_mapping (env : Env) (t : GoType)
    (fields : List (StructField × Value)) (node : Node)
    (hkind : node.Kind ≠ NodeKind.MappingNode) :
    (∀ key, fieldLookup node key = none) ∧
    ValidateStruct env (.struct t fields) node =
      .ok (fields.filterMap (fun f : StructField × Value =>
        if f.1.Tag.Get "validate" ≠ "" ∧
            (∃ r ∈ parseTag (f.1.Tag.Get "validate"), r.name = "required") then
          some (GoError.CustomError node.Line node.Column
            ("required field '" ++ effectiveName f.1 ++ "' is missing"))
        else none)) := by
  have hempty : ∀ key, fieldLookup node key = none := by
    intro key
    simp [fieldLookup, buildFieldMap, hkind]
  exact ⟨hempty, by
    rw [ValidateStruct_struct]
    exact validateFieldsLoop_all_missing env node (fieldLookup node) hempty fields⟩

/-- Witness of C11: the test structure against a sequence node, with a registry
whose validators all panic. -/
theorem ValidateStruct_not_mapping_witness :
    sequenceNode.Kind ≠ NodeKind.MappingNode ∧
    ValidateStruct panickingEnv
        (person "John Doe" 30 "2023-06-21T15:00:00Z" "john.doe@example.com") sequenceNode =
      .ok [.CustomError 7 3 "required field 'name' is missing"] :=
  ⟨by decide, by
    rw [person, (ValidateStruct_not_mapping panickingEnv _ _ sequenceNode (by decide)).2]
    decide⟩

/-! ### The registry -/

/-- C12: `RegisterValidator` is a plain map assignment, which cannot fail:
afterwards the lookup of the name finds the new validator, whatever was
registered under that name before, and the entry of every other name is
unchanged. After `init` the registry holds exactly the names `required`, `gt`
and `datetime`, bound to the three built-in validators. -/
theorem RegisterValidator_lookup (validators : Registry) (name : String)
    (validator : Validator) :
    RegisterValidator validators name validator name = some validator ∧
    (∀ previous : Validator,
      RegisterValidator (RegisterValidator validators name previous) name validator name =
        some validator) ∧
    (∀ other : String, other ≠ name →
      RegisterValidator validators name validator other = validators other) ∧
    (∀ (timeParse : String → String → Bool) (key : String),
      (init timeParse key).isSome = true ↔ key = "required" ∨ key = "gt" ∨ key = "datetime") ∧
    (∀ timeParse : String → String → Bool,
      init timeParse "required" = some validateRequired ∧
      init timeParse "gt" = some validateGreaterThan ∧
      init timeParse "datetime" = some (validateDatetime timeParse)) := by
  refine ⟨by simp [RegisterValidator], fun _ => by simp [RegisterValidator], ?_, ?_, ?_⟩
  · intro other hne
    simp [RegisterValidator, hne]
  · intro timeParse key
    simp only [init, RegisterValidator]
    by_cases h1 : key = "datetime"
    · simp [h1]
    · by_cases h2 : key = "gt"
      · simp [h2]
      · by_cases h3 : key = "required"
        · simp [h3]
        · simp [h1, h2, h3]
  · intro timeParse
    exact ⟨rfl, rfl, rfl⟩

/-- Witness of C12: registering under `email` leaves the entry of `gt` as it is. -/
theorem RegisterValidator_lookup_witness :
    "gt" ≠ "email" ∧
    RegisterValidator (init sampleTimeParse) "email" validateRequired "gt" =
      init sampleTimeParse "gt" :=
  ⟨by decide,
   (RegisterValidator_lookup (init sampleTimeParse) "email" validateRequired).2.2.1 "gt"
     (by decide)⟩

/-! ### The lookup loop, pair by pair -/

theorem contentPairs_of_length_le_one (l : List Node) (h : l.length ≤ 1) :
    contentPairs l = [] := by
  match l, h with
  | [], _ => rfl
  | [_], _ => rfl
  | _ :: _ :: _, h => simp at h

theorem length_contentPairs (l : List Node) : (contentPairs l).length = l.length / 2 := by
  induction l using contentPairs.induct with
  | case1 keyNode valueNode rest ih =>
    simp only [contentPairs, List.length_cons, ih]
    omega
  | case2 l hno =>
    match l, hno with
    | [], _ => rfl
    | [_], _ => simp [contentPairs]
    | a :: b :: rest, hno => exact absurd rfl (hno a b rest)

theorem contentPairs_getElem? (l : List Node) (j : Nat) (keyNode valueNode : Node) :
    (contentPairs l)[j]? = some (keyNode, valueNode) ↔
      l[2 * j]? = some keyNode ∧ l[2 * j + 1]? = some valueNode := by
  induction l using contentPairs.induct generalizing j with
  | case1 k v rest ih =>
    cases j with
    | zero => simp [contentPairs]
    | succ j =>
      have h1 : 2 * (j + 1) = 2 * j + 1 + 1 := by omega
      have h2 : 2 * (j + 1) + 1 = 2 * j + 1 + 1 + 1 := by omega
      simp only [contentPairs, List.getElem?_cons_succ, h1, h2]
      exact ih j
  | case2 l hno =>
    match l, hno with
    | [], _ => simp [contentPairs]
    | [a], _ =>
      simp only [contentPairs, List.getElem?_nil]
      constructor
      · intro h
        cases h
      · rintro ⟨_, h⟩
        obtain ⟨hlt, _⟩ := List.getElem?_eq_some.1 h
        simp at hlt
    | a :: b :: rest, hno => exact absurd rfl (hno a b rest)

theorem fieldMapLoop_eq_foldl (Content : List Node) (i : Nat) (fieldMap : FieldMap) :
    fieldMapLoop Content i fieldMap =
      .ok ((contentPairs (Content.drop i)).foldl FieldMap.addPair fieldMap) := by
  induction i, fieldMap using fieldMapLoop.induct Content with
  | case1 i fieldMap h keyNode valueNode hv hk ih =>
    rw [fieldMapLoop]
    simp only [dite_eq_ite] at ih
    simp only [h, if_true, hk, hv, ih]
    have h1 : i < Content.length := by omega
    have h2 : i + 1 < Content.length := by omega
    have hdrop : Content.drop i = keyNode :: valueNode :: Content.drop (i + 2) := by
      rw [List.drop_eq_getElem_cons h1, List.drop_eq_getElem_cons h2]
      rw [List.getElem?_eq_getElem h1] at hk
      rw [List.getElem?_eq_getElem h2] at hv
      simp only [Option.some.injEq] at hk hv
      rw [hk, hv]
    rw [hdrop]
    simp [contentPairs, FieldMap.addPair]
  | case2 i fieldMap h hno =>
    exfalso
    have h1 : i < Content.length := by omega
    have h2 : i + 1 < Content.length := by omega
    exact hno _ _ (List.getElem?_eq_getElem h1) (List.getElem?_eq_getElem h2)
  | case3 i fieldMap h =>
    rw [fieldMapLoop]
    simp only [h, if_false]
    rw [contentPairs_of_length_le_one]
    · rfl
    · simp only [List.length_drop]
      omega

theorem fieldLookup_mapping (node : Node) (hkind : node.Kind = NodeKind.MappingNode) :
    fieldLookup node = (contentPairs node.Content).foldl FieldMap.addPair (fun _ => none) := by
  funext key
  simp [fieldLookup, buildFieldMap, hkind, fieldMapLoop_eq_foldl]

theorem addPair_of_match (fieldMap : FieldMap) (pair : Node × Node)
    (hscalar : pair.1.Kind = NodeKind.ScalarNode) :
    fieldMap.addPair pair pair.1.Value = some pair.2 := by
  simp [FieldMap.addPair, FieldMap.set, hscalar]

theorem addPair_of_no_match (fieldMap : FieldMap) (pair : Node × Node) (key : String)
    (hno : ¬ (pair.1.Kind = NodeKind.ScalarNode ∧ pair.1.Value = key)) :
    fieldMap.addPair pair key = fieldMap key := by
  unfold FieldMap.addPair
  split
  · rename_i hs
    have hne : ¬ key = pair.1.Value := fun e => hno ⟨hs, e.symm⟩
    simp [FieldMap.set, hne]
  · rfl

theorem foldl_addPair_no_match (pairs : List (Node × Node)) (fieldMap : FieldMap) (key : String)
    (hno : ∀ pair ∈ pairs, ¬ (pair.1.Kind = NodeKind.ScalarNode ∧ pair.1.Value = key)) :
    pairs.foldl FieldMap.addPair fieldMap key = fieldMap key := by
  induction pairs generalizing fieldMap with
  | nil => rfl
  | cons pair rest ih =>
    rw [List.foldl_cons, ih _ (fun q hq => hno q (by simp [hq])),
      addPair_of_no_match _ _ _ (hno pair (by simp))]

theorem foldl_addPair_some (pairs : List (Node × Node)) (fieldMap : FieldMap) (key : String)
    (valueNode : Node) (h : pairs.foldl FieldMap.addPair fieldMap key = some valueNode) :
    fieldMap key = some valueNode ∨
      ∃ pair ∈ pairs, pair.1.Kind = NodeKind.ScalarNode ∧ pair.1.Value = key ∧
        pair.2 = valueNode := by
  induction pairs generalizing fieldMap with
  | nil => exact Or.inl h
  | cons pair rest ih =>
    rw [List.foldl_cons] at h
    rcases ih _ h with h1 | ⟨q, hq, hq1, hq2, hq3⟩
    · by_cases hm : pair.1.Kind = NodeKind.ScalarNode ∧ pair.1.Value = key
      · right
        refine ⟨pair, by simp, hm.1, hm.2, ?_⟩
        rw [← hm.2, addPair_of_match _ _ hm.1] at h1
        exact Option.some.inj h1
      · left
        rw [addPair_of_no_match _ _ _ hm] at h1
        exact h1
    · exact Or.inr ⟨q, by simp [hq], hq1, hq2, hq3⟩

theorem foldl_addPair_last (pairs : List (Node × Node)) (fieldMap : FieldMap) (j : Nat)
    (pair : Node × Node) (hpair : pairs[j]? = some pair)
    (hscalar : pair.1.Kind = NodeKind.ScalarNode)
    (hlater : ∀ (m : Nat) (q : Node × Node), j < m → pairs[m]? = some q →
      ¬ (q.1.Kind = NodeKind.ScalarNode ∧ q.1.Value = pair.1.Value)) :
    pairs.foldl FieldMap.addPair fieldMap pair.1.Value = some pair.2 := by
  induction pairs generalizing fieldMap j with
  | nil => simp at hpair
  | cons first rest ih =>
    rw [List.foldl_cons]
    cases j with
    | zero =>
      simp only [List.getElem?_cons_zero, Option.some.injEq] at hpair
      subst hpair
      rw [foldl_addPair_no_match, addPair_of_match _ _ hscalar]
      intro q hq
      obtain ⟨m, hm⟩ := List.mem_iff_getElem?.1 hq
      exact hlater (m + 1) q (by omega) (by simpa using hm)
    | succ j =>
      refine ih _ j (by simpa using hpair) ?_
      intro m q hjm hq
      exact hlater (m + 1) q (by omega) (by simpa using hq)

theorem mem_contentPairs (l : List Node) (pair : Node × Node) :
    pair ∈ contentPairs l ↔
      ∃ j, l[2 * j]? = some pair.1 ∧ l[2 * j + 1]? = some pair.2 := by
  rw [List.mem_iff_getElem?]
  constructor
  · rintro ⟨j, hj⟩
    exact ⟨j, (contentPairs_getElem? l j pair.1 pair.2).1 hj⟩
  · rintro ⟨j, hj⟩
    exact ⟨j, (contentPairs_getElem? l j pair.1 pair.2).2 hj⟩

theorem contentPairs_append (before rest : List Node) (heven : before.length % 2 = 0) :
    contentPairs (before ++ rest) = contentPairs before ++ contentPairs rest := by
  induction before using contentPairs.induct with
  | case1 k v tail ih =>
    have h : tail.length % 2 = 0 := by
      simp only [List.length_cons] at heven
      omega
    simp [contentPairs, ih h]
  | case2 l hno =>
    match l, hno, heven with
    | [], _, _ => simp [contentPairs]
    | [a], _, heven => simp at heven
    | a :: b :: tail, hno, _ => exact absurd rfl (hno a b tail)

/-- C14: for a mapping node the lookup maps a name `k` to a node `v` only if
some even-indexed element of the content is a scalar node with value `k` and
`v` is the element right after it; a name that is the value of no scalar key of
a complete pair is absent; building the lookup never fails, and a pair whose key
is not a scalar leaves the lookup as it would be without that pair. -/
theorem fieldLookup_scalar_keys (node : Node) (hkind : node.Kind = NodeKind.MappingNode)
    (k : String) :
    (∀ v : Node, fieldLookup node k = some v →
      ∃ (i : Nat) (keyNode : Node), i % 2 = 0 ∧ node.Content[i]? = some keyNode ∧
        keyNode.Kind = NodeKind.ScalarNode ∧ keyNode.Value = k ∧
        node.Content[i + 1]? = some v) ∧
    ((∀ (i : Nat) (keyNode : Node), i % 2 = 0 → i + 1 < node.Content.length →
        node.Content[i]? = some keyNode → keyNode.Kind = NodeKind.ScalarNode →
        keyNode.Value ≠ k) →
      fieldLookup node k = none) ∧
    (∃ fieldMap, buildFieldMap node = .ok fieldMap) ∧
    (∀ (before after : List Node) (keyNode valueNode : Node),
      node.Content = before ++ keyNode :: valueNode :: after → before.length % 2 = 0 →
      keyNode.Kind ≠ NodeKind.ScalarNode →
      fieldLookup node k = fieldLookup { node with Content := before ++ after } k) := by
  rw [fieldLookup_mapping node hkind]
  refine ⟨?_, ?_, buildFieldMap_ok node, ?_⟩
  · intro v hv
    rcases foldl_addPair_some _ _ _ _ hv with h | ⟨pair, hmem, hs, hval, h2⟩
    · cases h
    · obtain ⟨j, hj1, hj2⟩ := (mem_contentPairs _ _).1 hmem
      exact ⟨2 * j, pair.1, by omega, hj1, hs, hval, by rw [← h2]; exact hj2⟩
  · intro hno
    rw [foldl_addPair_no_match]
    intro pair hmem hm
    obtain ⟨j, hj1, hj2⟩ := (mem_contentPairs _ _).1 hmem
    obtain ⟨hlt, _⟩ := List.getElem?_eq_some.1 hj2
    exact hno (2 * j) pair.1 (by omega) hlt hj1 hm.1 hm.2
  · intro before after keyNode valueNode hcontent heven hkey
    rw [fieldLookup_mapping { node with Content := before ++ after } hkind, hcontent]
    simp only []
    rw [contentPairs_append _ _ heven, contentPairs_append _ _ heven]
    simp only [contentPairs, List.foldl_append, List.foldl_cons]
    have hskip : ∀ fm : FieldMap, fm.addPair (keyNode, valueNode) = fm := by
      intro fm
      simp [FieldMap.addPair, hkey]
    rw [hskip]

/-- Witness of C14: in the document with a sequence node as first key, `age` is
found after its scalar key and `name`, which is no scalar key, is absent. -/
theorem fieldLookup_scalar_keys_witness :
    documentSequenceKey.Kind = NodeKind.MappingNode ∧
    fieldLookup documentSequenceKey "age" = some (scalarNode 2 6 "16") ∧
    (∃ (i : Nat) (keyNode : Node), i % 2 = 0 ∧
      documentSequenceKey.Content[i]? = some keyNode ∧
      keyNode.Kind = NodeKind.ScalarNode ∧ keyNode.Value = "age" ∧
      documentSequenceKey.Content[i + 1]? = some (scalarNode 2 6 "16")) :=
  have hage : fieldLookup documentSequenceKey "age" = some (scalarNode 2 6 "16") := by
    simp [fieldLookup, buildFieldMap, documentSequenceKey, fieldMapLoop, FieldMap.set,
      scalarNode]
  ⟨rfl, hage,
   (fieldLookup_scalar_keys documentSequenceKey rfl "age").1 (scalarNode 2 6 "16") hage⟩

/-- C19: in a mapping node, when the scalar key at the even index `i` is the
last complete pair with that key value, the lookup resolves the name to the
node at `i + 1`, whatever pairs with the same key come before; so a field of
that name has its rules applied to that last value node, which is the node the
validators receive. In the document `age: 30`, `age: 16` the rule `gt=18`
reports the second value, at line 2. -/
theorem fieldLookup_last_occurrence (node : Node)
    (hkind : node.Kind = NodeKind.MappingNode) (i : Nat) (keyNode valueNode : Node)
    (heven : i % 2 = 0) (hkey : node.Content[i]? = some keyNode)
    (hvalue : node.Content[i + 1]? = some valueNode)
    (hscalar : keyNode.Kind = NodeKind.ScalarNode)
    (hlast : ∀ (j : Nat) (later : Node), j % 2 = 0 → i < j → j + 1 < node.Content.length →
      node.Content[j]? = some later → later.Kind = NodeKind.ScalarNode →
      later.Value ≠ keyNode.Value) :
    fieldLookup node keyNode.Value = some valueNode ∧
    (∀ (env : Env) (t : GoType) (field : StructField) (fieldValue : Value),
      field.Tag.Get "validate" ≠ "" → effectiveName field = keyNode.Value →
      ValidateStruct env (.struct t [(field, fieldValue)]) node =
        (if env.isYAMLValueType field.Typ then fieldValue.FieldByName "Value"
         else .ok fieldValue).bind (fun value =>
          applyValidationRules env.validators value (field.Tag.Get "validate")
            keyNode.Value valueNode)) ∧
    ValidateStruct testEnv (.struct { Name := "T" } [(personAge, .int { Name := "int" } 16)])
        documentDuplicate =
      .ok [.CustomError 2 6 "field 'age' must be greater than 18"] := by
  have hlook : fieldLookup node keyNode.Value = some valueNode := by
    rw [fieldLookup_mapping node hkind]
    have hpair : (contentPairs node.Content)[i / 2]? = some (keyNode, valueNode) := by
      rw [contentPairs_getElem?]
      have h2 : 2 * (i / 2) = i := by omega
      rw [h2]
      exact ⟨hkey, hvalue⟩
    refine foldl_addPair_last _ _ (i / 2) (keyNode, valueNode) hpair hscalar ?_
    intro m q hm hq hmatch
    obtain ⟨q1, q2⟩ := q
    obtain ⟨hq1, hq2⟩ := (contentPairs_getElem? _ _ _ _).1 hq
    obtain ⟨hlt, _⟩ := List.getElem?_eq_some.1 hq2
    exact hlast (2 * m) q1 (by omega) (by omega) hlt hq1 hmatch.1 hmatch.2
  refine ⟨hlook, ?_, ?_⟩
  · intro env t field fieldValue htag hname
    rw [ValidateStruct_struct, validateFieldsLoop_single]
    simp only [htag, if_false, hname, hlook]
    cases (if env.isYAMLValueType field.Typ then fieldValue.FieldByName "Value"
      else Except.ok fieldValue) <;> rfl
  · have hdup : fieldLookup documentDuplicate = fun key =>
        if key = "age" then some (scalarNode 2 6 "16") else none := by
      funext key
      by_cases hage : key = "age" <;>
        simp [fieldLookup, buildFieldMap, documentDuplicate, fieldMapLoop, FieldMap.set,
          scalarNode, hage]
    rw [ValidateStruct_struct, hdup]
    decide

/-- Witness of C19 in the document `age: 30`, `age: 16`: the key at index 2 is
the last one named `age`, and the lookup gives the node at index 3. -/
theorem fieldLookup_last_occurrence_witness :
    documentDuplicate.Content[2]? = some (scalarNode 2 1 "age") ∧
    documentDuplicate.Content[0]? = some (scalarNode 1 1 "age") ∧
    fieldLookup documentDuplicate "age" = some (scalarNode 2 6 "16") :=
  ⟨rfl, rfl,
   (fieldLookup_last_occurrence documentDuplicate rfl 2 (scalarNode 2 1 "age")
      (scalarNode 2 6 "16") (by decide) rfl rfl rfl (by
        intro j later _ hij hlt
        simp [documentDuplicate] at hlt
        omega)).1⟩

/-! ### Bounds and termination of the lookup loop -/

theorem fieldMapLoopVisited_eq (Content : List Node) (i : Nat) (fieldMap : FieldMap)
    (visited : List Nat) :
    fieldMapLoopVisited Content i fieldMap visited =
      .ok ((contentPairs (Content.drop i)).foldl FieldMap.addPair fieldMap,
        visited ++ (List.range ((Content.length - i) / 2)).map (fun j => i + 2 * j)) := by
  induction i, fieldMap, visited using fieldMapLoopVisited.induct Content with
  | case1 i fieldMap visited h keyNode valueNode hv hk ih =>
    rw [fieldMapLoopVisited]
    simp only [dite_eq_ite] at ih
    simp only [h, if_true, hk, hv, ih]
    have h1 : i < Content.length := by omega
    have h2 : i + 1 < Content.length := by omega
    have hdrop : Content.drop i = keyNode :: valueNode :: Content.drop (i + 2) := by
      rw [List.drop_eq_getElem_cons h1, List.drop_eq_getElem_cons h2]
      rw [List.getElem?_eq_getElem h1] at hk
      rw [List.getElem?_eq_getElem h2] at hv
      simp only [Option.some.injEq] at hk hv
      rw [hk, hv]
    have hcount : (Content.length - i) / 2 = (Content.length - (i + 2)) / 2 + 1 := by omega
    rw [hdrop, hcount, List.range_succ_eq_map]
    simp only [contentPairs, List.foldl_cons, FieldMap.addPair, List.map_cons, List.map_map,
      List.append_assoc, List.singleton_append, Nat.mul_zero, Nat.add_zero]
    congr 4
    apply List.map_congr_left
    intro j _
    simp only [Function.comp, Nat.succ_eq_add_one]
    omega
  | case2 i fieldMap visited h hno =>
    exfalso
    have h1 : i < Content.length := by omega
    have h2 : i + 1 < Content.length := by omega
    exact hno _ _ (List.getElem?_eq_getElem h1) (List.getElem?_eq_getElem h2)
  | case3 i fieldMap visited h =>
    rw [fieldMapLoopVisited]
    simp only [h, if_false]
    have hzero : (Content.length - i) / 2 = 0 := by omega
    rw [contentPairs_of_length_le_one, hzero]
    · simp
    · simp only [List.length_drop]
      omega

/-- C20: for every content list, of any length, the lookup loop returns
without panicking: no index expression is out of range. Its body runs exactly at
the indices `0, 2, ..`, one for each of the `len / 2` complete pairs, and at
each of them `i + 1` is within the list. A last key without value is ignored:
the lookup is the one of the content without it, so its name is absent unless a
complete pair has it as scalar key. Lengths 0, 1 and 3 are evaluated. -/
theorem fieldMapLoop_in_bounds (Content : List Node) (fieldMap : FieldMap) :
    (∃ result : FieldMap, fieldMapLoop Content 0 fieldMap = .ok result ∧
      fieldMapLoopVisited Content 0 fieldMap [] =
        .ok (result, (List.range (Content.length / 2)).map (fun j => 2 * j))) ∧
    (∀ i ∈ (List.range (Content.length / 2)).map (fun j => 2 * j), i + 1 < Content.length) ∧
    (∀ (node : Node) (complete : List Node) (trailing : Node),
      node.Kind = NodeKind.MappingNode → node.Content = complete ++ [trailing] →
      complete.length % 2 = 0 →
      (∀ key, fieldLookup node key = fieldLookup { node with Content := complete } key) ∧
      ((∀ (i : Nat) (keyNode : Node), i % 2 = 0 → i + 1 < complete.length →
          complete[i]? = some keyNode → keyNode.Kind = NodeKind.ScalarNode →
          keyNode.Value ≠ trailing.Value) →
        fieldLookup node trailing.Value = none)) ∧
    (fieldMapLoopVisited [] 0 fieldMap [] = .ok (fieldMap, []) ∧
      fieldMapLoopVisited [scalarNode 1 1 "name"] 0 fieldMap [] = .ok (fieldMap, []) ∧
      (fieldMapLoopVisited documentTrailing.Content 0 fieldMap []).map Prod.snd = .ok [0] ∧
      fieldLookup documentTrailing "name" = none ∧
      fieldLookup documentTrailing "age" = some (scalarNode 1 6 "16")) := by
  refine ⟨⟨_, fieldMapLoop_eq_foldl Content 0 fieldMap, ?_⟩, ?_, ?_, ?_⟩
  · rw [fieldMapLoopVisited_eq]
    simp
  · intro i hi
    obtain ⟨j, hj, rfl⟩ := List.mem_map.1 hi
    have := List.mem_range.1 hj
    omega
  · intro node complete trailing hkind hcontent heven
    have hpairs : contentPairs node.Content = contentPairs complete := by
      rw [hcontent, contentPairs_append _ _ heven]
      simp [contentPairs]
    have hsame : ∀ key, fieldLookup node key =
        fieldLookup { node with Content := complete } key := by
      intro key
      rw [fieldLookup_mapping node hkind,
        fieldLookup_mapping { node with Content := complete } hkind, hpairs]
    refine ⟨hsame, ?_⟩
    intro hno
    rw [hsame, fieldLookup_mapping { node with Content := complete } hkind]
    simp only []
    rw [foldl_addPair_no_match]
    intro pair hmem hm
    obtain ⟨j, hj1, hj2⟩ := (mem_contentPairs _ _).1 hmem
    obtain ⟨hlt, _⟩ := List.getElem?_eq_some.1 hj2
    exact hno (2 * j) pair.1 (by omega) hlt hj1 hm.1 hm.2
  · refine ⟨?_, ?_, ?_, ?_, ?_⟩
    · rw [fieldMapLoopVisited_eq]
      simp [contentPairs]
    · rw [fieldMapLoopVisited_eq]
      simp [contentPairs]
    · rw [fieldMapLoopVisited_eq]
      simp [documentTrailing, Except.map]
      decide
    · simp [fieldLookup, buildFieldMap, documentTrailing, fieldMapLoop, FieldMap.set,
        scalarNode]
    · simp [fieldLookup, buildFieldMap, documentTrailing, fieldMapLoop, FieldMap.set,
        scalarNode]

/-- Witness of C20: the last key `name` of the odd-length content has no value
and is absent from the lookup. -/
theorem fieldMapLoop_in_bounds_witness :
    documentTrailing.Content =
      [scalarNode 1 1 "age", scalarNode 1 6 "16"] ++ [scalarNode 2 1 "name"] ∧
    fieldLookup documentTrailing (scalarNode 2 1 "name").Value = none :=
  ⟨rfl,
   ((fieldMapLoop_in_bounds [] (fun _ => none)).2.2.1 documentTrailing
      [scalarNode 1 1 "age", scalarNode 1 6 "16"] (scalarNode 2 1 "name") rfl rfl rfl).2 (by
        intro i keyNode _ hlt hget _ hval
        have hi : i = 0 := by
          simp at hlt
          omega
        subst hi
        simp only [List.getElem?_cons_zero, Option.some.injEq] at hget
        subst hget
        exact absurd hval (by decide))⟩

/-! ### The effective document name -/

theorem ValidateStruct_untagged (env : Env) (t : GoType)
    (before after : List (StructField × Value)) (field : StructField) (fieldValue : Value)
    (node : Node) (htag : field.Tag.Get "validate" = "") :
    ValidateStruct env (.struct t (before ++ (field, fieldValue) :: after)) node =
      ValidateStruct env (.struct t (before ++ after)) node := by
  simp only [ValidateStruct_struct, validateFieldsLoop_append]
  rw [validateFieldsLoop_cons, validateFieldsLoop_single]
  simp [htag]

/-- C15: for a field with a non-empty `validate` tag the effective document
name is the `yaml` tag string as it stands when that string is not empty, and
the declared field name when it is absent or empty; this name is the key looked
up, the name handed to the validators and the name in the missing-field
message. A field whose `validate` tag is absent or empty contributes nothing,
whatever the node. Three sample fields are evaluated on the first test
document, among them a `yaml` tag with an option, which is looked up whole. -/
theorem effectiveName_verbatim (env : Env) (t : GoType) (field : StructField)
    (fieldValue : Value) (node : Node) (htag : field.Tag.Get "validate" ≠ "") :
    (field.Tag.Get "yaml" ≠ "" → effectiveName field = field.Tag.Get "yaml") ∧
    (field.Tag.Get "yaml" = "" → effectiveName field = field.Name) ∧
    ValidateStruct env (.struct t [(field, fieldValue)]) node =
      (match fieldLookup node (effectiveName field) with
       | some childNode =>
         (if env.isYAMLValueType field.Typ then fieldValue.FieldByName "Value"
          else .ok fieldValue).bind (fun value =>
           applyValidationRules env.validators value (field.Tag.Get "validate")
             (effectiveName field) childNode)
       | none =>
         .ok (if tagContainsRequired (field.Tag.Get "validate") then
           [GoError.CustomError node.Line node.Column
             ("required field '" ++ effectiveName field ++ "' is missing")]
         else [])) ∧
    (∀ (before after : List (StructField × Value)) (other : StructField) (otherValue : Value),
      other.Tag.Get "validate" = "" →
      ValidateStruct env (.struct t (before ++ (other, otherValue) :: after)) node =
        ValidateStruct env (.struct t (before ++ after)) node) ∧
    (effectiveName nameOmitEmpty = "name,omitempty" ∧
      ValidateStruct testEnv
          (.struct { Name := "T" } [(nameOmitEmpty, .str { Name := "string" } "John Doe")])
          document1 =
        .ok [.CustomError 2 1 "required field 'name,omitempty' is missing"] ∧
      effectiveName nickNoYamlTag = "Nick" ∧
      ValidateStruct testEnv
          (.struct { Name := "T" } [(nickNoYamlTag, .str { Name := "string" } "")])
          document1 =
        .ok [.CustomError 2 1 "required field 'Nick' is missing"] ∧
      noteUntagged.Tag.Get "validate" = "" ∧
      ValidateStruct panickingEnv
          (.struct { Name := "T" } [(noteUntagged, .str { Name := "string" } "")])
          document1 = .ok []) := by
  refine ⟨?_, ?_, ?_, ?_, ?_⟩
  · intro h
    simp [effectiveName, h]
  · intro h
    simp [effectiveName, h]
  · rw [ValidateStruct_struct, validateFieldsLoop_single]
    simp only [htag, if_false]
    cases fieldLookup node (effectiveName field) with
    | none => rfl
    | some childNode =>
      simp only []
      cases (if env.isYAMLValueType field.Typ then fieldValue.FieldByName "Value"
        else Except.ok fieldValue) <;> rfl
  · intro before after other otherValue hother
    exact ValidateStruct_untagged env t before after other otherValue node hother
  · refine ⟨by decide, ?_, by decide, ?_, by decide, ?_⟩
    · rw [ValidateStruct_struct, fieldLookup_document1_fun]
      decide
    · rw [ValidateStruct_struct, fieldLookup_document1_fun]
      decide
    · rw [ValidateStruct_struct, fieldLookup_document1_fun]
      decide

/-- Witness of C15: the field `Age` of the test, whose `yaml` tag is `age`. -/
theorem effectiveName_verbatim_witness :
    personAge.Tag.Get "validate" ≠ "" ∧ personAge.Tag.Get "yaml" ≠ "" ∧
    effectiveName personAge = personAge.Tag.Get "yaml" :=
  ⟨by decide, by decide,
   (effectiveName_verbatim testEnv { Name := "T" } personAge (.int { Name := "int" } 16)
      document2 (by decide)).1 (by decide)⟩

/-! ### Round trip of the rule grammar -/

theorem intercalate_go_data (acc sep : String) (l : List String) :
    (String.intercalate.go acc sep l).data =
      acc.data ++ (l.map (fun a => sep.data ++ a.data)).flatten := by
  induction l generalizing acc with
  | nil => simp [String.intercalate.go]
  | cons a rest ih => simp [String.intercalate.go, ih, List.append_assoc]

theorem list_intercalate_cons {α : Type} (sep a : List α) (l : List (List α)) :
    List.intercalate sep (a :: l) = a ++ (l.map (fun b => sep ++ b)).flatten := by
  induction l generalizing a with
  | nil => simp [List.intercalate]
  | cons b rest ih =>
    have h := ih b
    simp only [List.intercalate, List.intersperse, List.flatten_cons, List.map_cons] at h ⊢
    rw [h]
    simp

theorem intercalate_data (sep : String) (l : List String) :
    (sep.intercalate l).data = List.intercalate sep.data (l.map String.data) := by
  cases l with
  | nil => simp [String.intercalate, List.intercalate]
  | cons a rest =>
    rw [List.map_cons, list_intercalate_cons]
    simp [String.intercalate, intercalate_go_data, List.map_map, Function.comp_def]

theorem renderRule_parsePart (seg : String) : renderRule (parsePart seg) = seg := by
  by_cases h : '=' ∈ seg.data
  · obtain ⟨name, param, h1, _, h3⟩ := parsePart_of_mem seg h
    rw [h3, h1]
    rfl
  · rw [parsePart_of_not_mem seg h]
    rfl

theorem renderTag_parseTag (t : String) : renderTag (parseTag t) = t := by
  apply String.ext
  rw [renderTag, parseTag_eq_map, List.map_map, intercalate_data, List.map_map]
  have h : (String.data ∘ renderRule ∘ parsePart) = String.data := by
    funext seg
    simp [renderRule_parsePart]
  rw [h]
  have h2 : (stringsSplit t ',').map String.data = splitChars ',' t.data := by
    simp [stringsSplit, Function.comp_def]
  rw [h2]
  exact intercalate_splitChars ',' t.data

theorem parsePart_chars (seg : String) :
    '=' ∉ (parsePart seg).name.data ∧
    (∀ c ∈ (parsePart seg).name.data, c ∈ seg.data) ∧
    (∀ p ∈ (parsePart seg).params, ∀ c ∈ p.data, c ∈ seg.data) := by
  by_cases h : '=' ∈ seg.data
  · obtain ⟨a, b, h1, h2, h3⟩ := cutChars_of_mem '=' seg.data h
    have hp : parsePart seg = { name := String.mk a, params := [String.mk b] } := by
      simp [parsePart, stringsSplitN2, h1]
    rw [hp]
    refine ⟨h3, ?_, ?_⟩
    · intro c hc
      rw [h2]
      exact List.mem_append_left _ hc
    · intro p hpm c hc
      rw [List.mem_singleton] at hpm
      subst hpm
      rw [h2]
      exact List.mem_append_right _ (List.mem_cons_of_mem _ hc)
  · rw [parsePart_of_not_mem seg h]
    exact ⟨h, fun c hc => hc, fun p hp => by cases hp⟩

/-- C16: for every tag `t`, writing each rule of `parseTag t` as `name` when it
has no parameter and as `name=param` when it has one, and joining these texts
with commas, gives `t` back exactly; no rule name contains a comma or an equals
sign, and no parameter contains a comma. -/
theorem parseTag_round_trip (t : String) :
    renderTag (parseTag t) = t ∧
    (∀ r ∈ parseTag t, ',' ∉ r.name.data ∧ '=' ∉ r.name.data ∧
      ∀ p ∈ r.params, ',' ∉ p.data) ∧
    renderTag (parseTag "required, gt=1=2,,=x") = "required, gt=1=2,,=x" ∧
    parseTag "required, gt=1=2,,=x" =
      [{ name := "required", params := [] }, { name := " gt", params := ["1=2"] },
       { name := "", params := [] }, { name := "", params := ["x"] }] := by
  refine ⟨renderTag_parseTag t, ?_, renderTag_parseTag _, by decide⟩
  intro r hr
  rw [parseTag_eq_map] at hr
  obtain ⟨seg, hseg, rfl⟩ := List.mem_map.1 hr
  have hcomma : ',' ∉ seg.data := by
    simp only [stringsSplit, List.mem_map] at hseg
    obtain ⟨cs, hcs, rfl⟩ := hseg
    exact not_mem_of_mem_splitChars _ _ cs hcs
  obtain ⟨h1, h2, h3⟩ := parsePart_chars seg
  exact ⟨fun hc => hcomma (h2 _ hc), h1, fun p hp hc => hcomma (h3 p hp _ hc)⟩

/-- Witness of C16 at the tag `gt=18,required`: its rule `gt` with parameter
`18`. -/
theorem parseTag_round_trip_witness :
    ({ name := "gt", params := ["18"] } : validationRule) ∈ parseTag "gt=18,required" ∧
    ',' ∉ "gt".data ∧ '=' ∉ "gt".data ∧ ∀ p ∈ ["18"], ',' ∉ p.data :=
  ⟨by decide,
   (parseTag_round_trip "gt=18,required").2.1 { name := "gt", params := ["18"] } (by decide)⟩

/-! ### A bound on the number of errors -/

theorem applyValidationRulesLoop_length (validators : Registry) (value : Value)
    (yamlTag : String) (node : Node) (rules : List validationRule) (errors res : List GoError)
    (h : applyValidationRulesLoop validators value yamlTag node rules errors = .ok res) :
    res.length ≤ errors.length + rules.length := by
  induction rules generalizing errors with
  | nil =>
    simp only [applyValidationRulesLoop, Except.ok.injEq] at h
    subst h
    simp
  | cons rule rest ih =>
    simp only [applyValidationRulesLoop] at h
    cases hv : validators rule.name with
    | none =>
      rw [hv] at h
      have := ih errors h
      simp only [List.length_cons]
      omega
    | some validator =>
      rw [hv] at h
      simp only [] at h
      cases hr : validator value yamlTag node (firstParam rule) with
      | error p =>
        rw [hr] at h
        cases h
      | ok err =>
        rw [hr] at h
        cases err with
        | none =>
          have := ih errors h
          simp only [List.length_cons]
          omega
        | some e0 =>
          have := ih (errors ++ [e0]) h
          simp only [List.length_append, List.length_cons, List.length_nil] at this ⊢
          omega

theorem parseTag_length_pos (tag : String) : 1 ≤ (parseTag tag).length := by
  rw [parseTag_eq_map]
  simp [stringsSplit, length_splitChars]

theorem single_field_length (env : Env) (t : GoType) (field : StructField)
    (fieldValue : Value) (node : Node) (e : List GoError)
    (h : ValidateStruct env (.struct t [(field, fieldValue)]) node = .ok e) :
    (field.Tag.Get "validate" = "" → e = []) ∧
    (field.Tag.Get "validate" ≠ "" → e.length ≤ (parseTag (field.Tag.Get "validate")).length) ∧
    (fieldLookup node (effectiveName field) = none → e.length ≤ 1) := by
  rw [ValidateStruct_struct, validateFieldsLoop_single] at h
  by_cases htag : field.Tag.Get "validate" = ""
  · simp only [htag, if_true, Except.ok.injEq] at h
    subst h
    simp [htag]
  · simp only [htag, if_false] at h
    cases hl : fieldLookup node (effectiveName field) with
    | none =>
      rw [hl] at h
      simp only [Except.ok.injEq] at h
      subst h
      have hpos := parseTag_length_pos (field.Tag.Get "validate")
      refine ⟨fun h0 => absurd h0 htag, fun _ => ?_, fun _ => ?_⟩
      · split
        · simpa using hpos
        · simp
      · split <;> simp
    | some childNode =>
      rw [hl] at h
      simp only [] at h
      refine ⟨fun h0 => absurd h0 htag, fun _ => ?_, fun h0 => by cases h0⟩
      split at h
      · cases h
      · have := applyValidationRulesLoop_length _ _ _ _ _ [] e h
        simpa using this

/-- C17: when `ValidateStruct` returns, the number of its errors is at most the
total number of rules of the fields that have a `validate` tag: a field alone
yields no error without tag, at most one error per rule with a tag, and at most
one error in all when it is missing from the document. -/
theorem ValidateStruct_length_le (env : Env) (t : GoType)
    (fields : List (StructField × Value)) (node : Node) (errs : List GoError)
    (h : ValidateStruct env (.struct t fields) node = .ok errs) :
    errs.length ≤ totalRules fields ∧
    (∀ (field : StructField) (fieldValue : Value) (e : List GoError),
      ValidateStruct env (.struct t [(field, fieldValue)]) node = .ok e →
      (field.Tag.Get "validate" = "" → e = []) ∧
      (field.Tag.Get "validate" ≠ "" →
        e.length ≤ (parseTag (field.Tag.Get "validate")).length) ∧
      (fieldLookup node (effectiveName field) = none → e.length ≤ 1)) := by
  refine ⟨?_, fun field fieldValue e he => single_field_length env t field fieldValue node e he⟩
  rw [ValidateStruct_eq_mapM env t fields node] at h
  cases hm : List.mapM (fun f => ValidateStruct env (.struct t [f]) node) fields with
  | error p =>
    rw [hm] at h
    cases h
  | ok perField =>
    rw [hm] at h
    cases h
    have hall := mapM_ok_forall₂ _ fields perField hm
    clear hm
    induction hall with
    | nil => simp [totalRules]
    | @cons f e fields perField hf _ ih =>
      obtain ⟨field, fieldValue⟩ := f
      obtain ⟨h1, h2, _⟩ := single_field_length env t field fieldValue node e hf
      rw [List.flatten_cons, List.length_append]
      by_cases htag : field.Tag.Get "validate" = ""
      · have he := h1 htag
        subst he
        simpa [totalRules, List.filter_cons, htag] using ih
      · have hle := h2 htag
        simp only [totalRules, List.filter_cons, htag, ne_eq, not_false_eq_true,
          decide_True, if_true, List.map_cons, List.sum_cons] at ih ⊢
        omega

/-- Witness of C17 on the second test document: two errors, four rules. -/
theorem ValidateStruct_length_le_witness :
    ValidateStruct testEnv (person "" 16 "2023-06-21T15:00:00Z" "john.doe@example.com")
        document2 =
      .ok [.CustomError 2 1 "required field 'name' is missing",
           .CustomError 2 6 "field 'age' must be greater than 18"] ∧
    [GoError.CustomError 2 1 "required field 'name' is missing",
     GoError.CustomError 2 6 "field 'age' must be greater than 18"].length ≤
      totalRules
        [(personName, .str { Name := "string" } ""),
         (personAge, .int { Name := "int" } 16),
         (personCreatedAt, .str { Name := "string" } "2023-06-21T15:00:00Z"),
         (personEmail, .str { Name := "string" } "john.doe@example.com")] :=
  have h : ValidateStruct testEnv
      (person "" 16 "2023-06-21T15:00:00Z" "john.doe@example.com") document2 =
      .ok [.CustomError 2 1 "required field 'name' is missing",
           .CustomError 2 6 "field 'age' must be greater than 18"] := by
    rw [person, ValidateStruct_struct, fieldLookup_document2_fun]
    decide
  ⟨h, (ValidateStruct_length_le testEnv _ _ document2 _ h).1⟩

/-! ### Which tags count as required -/

theorem append_cons_unique (sep : Char) (a a2 b b2 : List Char) (ha : sep ∉ a) (ha2 : sep ∉ a2)
    (h : a ++ sep :: b = a2 ++ sep :: b2) : a = a2 := by
  induction a generalizing a2 with
  | nil =>
    cases a2 with
    | nil => rfl
    | cons c cs =>
      simp only [List.nil_append, List.cons_append, List.cons.injEq] at h
      exact absurd (by simp [h.1]) ha2
  | cons c cs ih =>
    cases a2 with
    | nil =>
      simp only [List.nil_append, List.cons_append, List.cons.injEq] at h
      exact absurd (by simp [h.1]) ha
    | cons c2 cs2 =>
      simp only [List.cons_append, List.cons.injEq] at h
      simp only [List.mem_cons, not_or] at ha ha2
      rw [h.1, ih cs2 ha.2 ha2.2 h.2]

theorem parsePart_name_required (seg : String) :
    (parsePart seg).name = "required" ↔
      seg = "required" ∨ ∃ rest : String, seg = "required=" ++ rest := by
  by_cases h : '=' ∈ seg.data
  · obtain ⟨a, b, h1, h2, h3⟩ := cutChars_of_mem '=' seg.data h
    have hp : (parsePart seg).name = String.mk a := by
      simp [parsePart, stringsSplitN2, h1]
    rw [hp]
    constructor
    · intro hname
      right
      refine ⟨String.mk b, ?_⟩
      apply String.ext
      have ha : a = "required".data := congrArg String.data hname
      rw [h2, ha]
      rfl
    · rintro (hseg | ⟨rest, hseg⟩)
      · rw [hseg] at h
        exact absurd h (by decide)
      · have hdata : a ++ '=' :: b = "required".data ++ '=' :: rest.data := by
          rw [← h2, hseg]
          rfl
        have ha := append_cons_unique '=' a "required".data b rest.data h3 (by decide) hdata
        rw [ha]
  · rw [parsePart_of_not_mem seg h]
    constructor
    · intro hname
      exact Or.inl hname
    · rintro (hseg | ⟨rest, hseg⟩)
      · exact hseg
      · exfalso
        apply h
        rw [hseg]
        have : ("required=" ++ rest).data = "required=".data ++ rest.data := rfl
        rw [this]
        exact List.mem_append_left _ (by decide)

/-- C18: `tagContainsRequired` is true exactly when some comma-separated
segment of the tag is `required` or begins with `required=`. So `required=x`
counts, while a segment with a blank before it or with a capital letter does
not: a missing field tagged that way is skipped, as is seen on the second test
document, which has no key `name`. -/
theorem tagContainsRequired_segments (tag : String) :
    (tagContainsRequired tag = true ↔
      ∃ seg ∈ stringsSplit tag ',',
        seg = "required" ∨ ∃ rest : String, seg = "required=" ++ rest) ∧
    tagContainsRequired "required=x" = true ∧
    tagContainsRequired "gt=18,required" = true ∧
    tagContainsRequired " required" = false ∧
    tagContainsRequired "gt=18, required" = false ∧
    tagContainsRequired "Required" = false ∧
    tagContainsRequired "requiredx" = false ∧
    ValidateStruct testEnv (.struct { Name := "T" }
        [(taggedField "Name" "string" "name" " required", .str { Name := "string" } "")])
        document2 = .ok [] ∧
    ValidateStruct testEnv (.struct { Name := "T" }
        [(taggedField "Name" "string" "name" "Required", .str { Name := "string" } "")])
        document2 = .ok [] ∧
    ValidateStruct testEnv (.struct { Name := "T" }
        [(taggedField "Name" "string" "name" "required=x", .str { Name := "string" } "")])
        document2 = .ok [.CustomError 2 1 "required field 'name' is missing"] := by
  refine ⟨?_, by decide, by decide, by decide, by decide, by decide, by decide, ?_, ?_, ?_⟩
  · rw [tagContainsRequired_iff, parseTag_eq_map]
    constructor
    · rintro ⟨r, hr, hname⟩
      obtain ⟨seg, hseg, rfl⟩ := List.mem_map.1 hr
      exact ⟨seg, hseg, (parsePart_name_required seg).1 hname⟩
    · rintro ⟨seg, hseg, h⟩
      exact ⟨parsePart seg, List.mem_map.2 ⟨seg, hseg, rfl⟩,
        (parsePart_name_required seg).2 h⟩
  · rw [ValidateStruct_struct, fieldLookup_document2_fun]
    decide
  · rw [ValidateStruct_struct, fieldLookup_document2_fun]
    decide
  · rw [ValidateStruct_struct, fieldLookup_document2_fun]
    decide

/-- Witness of C18 at the tag `gt=18,required=x`, whose second segment begins
with `required=`. -/
theorem tagContainsRequired_segments_witness :
    "required=x" ∈ stringsSplit "gt=18,required=x" ',' ∧
    tagContainsRequired "gt=18,required=x" = true :=
  ⟨by decide,
   (tagContainsRequired_segments "gt=18,required=x").1.2
     ⟨"required=x", by decide, Or.inr ⟨"x", by decide⟩⟩⟩

/-! ### Calls on mutable memory -/

theorem addrPairs_of_length_le_one (l : List Addr) (h : l.length ≤ 1) : addrPairs l = [] := by
  match l, h with
  | [], _ => rfl
  | [_], _ => rfl
  | _ :: _ :: _, h => simp at h

theorem fieldMapLoopM_eq_foldlM (nodes : Addr → Option NodeCell) (Content : List Addr)
    (i : Nat) (fieldMap : FieldMapM) :
    fieldMapLoopM nodes Content i fieldMap =
      (addrPairs (Content.drop i)).foldlM (lookupStepM nodes) fieldMap := by
  induction i, fieldMap using fieldMapLoopM.induct nodes Content with
  | case1 i fieldMap h keyAddr valueAddr hv hk p hderef =>
    rw [fieldMapLoopM]
    have h1 : i < Content.length := by omega
    have h2 : i + 1 < Content.length := by omega
    have hdrop : Content.drop i = keyAddr :: valueAddr :: Content.drop (i + 2) := by
      rw [List.drop_eq_getElem_cons h1, List.drop_eq_getElem_cons h2]
      rw [List.getElem?_eq_getElem h1] at hk
      rw [List.getElem?_eq_getElem h2] at hv
      simp only [Option.some.injEq] at hk hv
      rw [hk, hv]
    simp only [h, if_true, hk, hv, hderef, hdrop, addrPairs, List.foldlM_cons, lookupStepM,
      bind, Except.bind]
  | case2 i fieldMap h keyAddr valueAddr hv hk keyNode hderef ih =>
    rw [fieldMapLoopM]
    have h1 : i < Content.length := by omega
    have h2 : i + 1 < Content.length := by omega
    have hdrop : Content.drop i = keyAddr :: valueAddr :: Content.drop (i + 2) := by
      rw [List.drop_eq_getElem_cons h1, List.drop_eq_getElem_cons h2]
      rw [List.getElem?_eq_getElem h1] at hk
      rw [List.getElem?_eq_getElem h2] at hv
      simp only [Option.some.injEq] at hk hv
      rw [hk, hv]
    simp only [dite_eq_ite] at ih
    simp only [h, if_true, hk, hv, hderef, hdrop, addrPairs, List.foldlM_cons, lookupStepM,
      bind, Except.bind, ih]
  | case3 i fieldMap h hno =>
    exfalso
    have h1 : i < Content.length := by omega
    have h2 : i + 1 < Content.length := by omega
    exact hno _ _ (List.getElem?_eq_getElem h1) (List.getElem?_eq_getElem h2)
  | case4 i fieldMap h =>
    rw [fieldMapLoopM]
    simp only [h, if_false]
    rw [addrPairs_of_length_le_one]
    · rfl
    · simp only [List.length_drop]
      omega

theorem applyValidationRulesRun_frame (validators : RegistryM)
    (hreg : ∀ name validator, validators name = some validator → ReadOnly validator)
    (value : ValueRef) (yamlTag : String) (node : Addr) (rules : List validationRule)
    (errors res : List GoError) (m m2 : Memory)
    (h : applyValidationRulesRun validators value yamlTag node rules errors m = .ok (res, m2)) :
    m2.nodes = m.nodes ∧ m2.target = m.target := by
  induction rules generalizing errors m with
  | nil =>
    simp only [applyValidationRulesRun, Except.ok.injEq, Prod.mk.injEq] at h
    obtain ⟨_, rfl⟩ := h
    exact ⟨rfl, rfl⟩
  | cons rule rest ih =>
    simp only [applyValidationRulesRun] at h
    cases hv : validators rule.name with
    | none =>
      rw [hv] at h
      simp only [] at h
      have hrest := ih _ _ h
      exact hrest
    | some validator =>
      rw [hv] at h
      simp only [] at h
      have hro := (hreg _ _ hv m value yamlTag node (firstParam rule)).1
      cases hr : validator m value yamlTag node (firstParam rule) with
      | error p =>
        rw [hr] at h
        cases h
      | ok r =>
        obtain ⟨err, m1⟩ := r
        have hm1 := hro err m1 hr
        subst hm1
        rw [hr] at h
        cases err with
        | none => exact ih _ _ h
        | some e => exact ih _ _ h

theorem applyValidationRulesRun_agree (validators : RegistryM)
    (hreg : ∀ name validator, validators name = some validator → ReadOnly validator)
    (value : ValueRef) (yamlTag : String) (node : Addr) (rules : List validationRule)
    (errors : List GoError) (m m3 : Memory) (hn : m3.nodes = m.nodes)
    (ht : m3.target = m.target) :
    (applyValidationRulesRun validators value yamlTag node rules errors m3).map Prod.fst =
      (applyValidationRulesRun validators value yamlTag node rules errors m).map Prod.fst := by
  induction rules generalizing errors m m3 with
  | nil => rfl
  | cons rule rest ih =>
    simp only [applyValidationRulesRun]
    cases hv : validators rule.name with
    | none => exact ih _ _ _ hn ht
    | some validator =>
      simp only []
      have hro := hreg _ _ hv
      have hsame := (hro m value yamlTag node (firstParam rule)).2 m3 hn ht
      cases hr : validator m value yamlTag node (firstParam rule) with
      | error p =>
        rw [hr] at hsame
        cases hr3 : validator m3 value yamlTag node (firstParam rule) with
        | error p3 =>
          rw [hr3] at hsame
          simp only [Except.map, Except.error.injEq] at hsame
          subst hsame
          rfl
        | ok r3 =>
          rw [hr3] at hsame
          simp [Except.map] at hsame
      | ok r =>
        obtain ⟨err, m1⟩ := r
        have hm1 := (hro m value yamlTag node (firstParam rule)).1 err m1 hr
        subst hm1
        rw [hr] at hsame
        cases hr3 : validator m3 value yamlTag node (firstParam rule) with
        | error p3 =>
          rw [hr3] at hsame
          simp [Except.map] at hsame
        | ok r3 =>
          obtain ⟨err3, m4⟩ := r3
          have hm4 := (hro m3 value yamlTag node (firstParam rule)).1 err3 m4 hr3
          subst hm4
          rw [hr3] at hsame
          simp only [Except.map, Except.ok.injEq] at hsame
          subst hsame
          cases err3 with
          | none => exact ih _ _ _ hn ht
          | some e => exact ih _ _ _ hn ht

theorem validateFieldsRun_frame (validators : RegistryM)
    (hreg : ∀ name validator, validators name = some validator → ReadOnly validator)
    (isYAMLValueType : GoType → Bool) (node : Addr) (fieldMap : FieldMapM)
    (fields : List StructField) (i : Nat) (errors res : List GoError) (m m2 : Memory)
    (h : validateFieldsRun validators isYAMLValueType node fieldMap fields i errors m =
      .ok (res, m2)) :
    m2.nodes = m.nodes ∧ m2.target = m.target := by
  induction fields generalizing i errors m with
  | nil =>
    simp only [validateFieldsRun, Except.ok.injEq, Prod.mk.injEq] at h
    obtain ⟨_, rfl⟩ := h
    exact ⟨rfl, rfl⟩
  | cons field rest ih =>
    simp only [validateFieldsRun] at h
    split at h
    · split at h
      · split at h
        · cases h
        · split at h
          · cases h
          · rename_i errs m1 hrules
            have h1 := applyValidationRulesRun_frame validators hreg _ _ _ _ _ _ _ _ hrules
            have h2 := ih _ _ _ h
            exact ⟨h2.1.trans h1.1, h2.2.trans h1.2⟩
      · split at h
        · split at h
          · cases h
          · exact ih _ _ _ h
        · exact ih _ _ _ h
    · exact ih _ _ _ h

theorem validateFieldsRun_agree (validators : RegistryM)
    (hreg : ∀ name validator, validators name = some validator → ReadOnly validator)
    (isYAMLValueType : GoType → Bool) (node : Addr) (fieldMap : FieldMapM)
    (fields : List StructField) (i : Nat) (errors : List GoError) (m m3 : Memory)
    (hn : m3.nodes = m.nodes) (ht : m3.target = m.target) :
    (validateFieldsRun validators isYAMLValueType node fieldMap fields i errors m3).map
        Prod.fst =
      (validateFieldsRun validators isYAMLValueType node fieldMap fields i errors m).map
        Prod.fst := by
  induction fields generalizing i errors m m3 with
  | nil => rfl
  | cons field rest ih =>
    simp only [validateFieldsRun, hn, ht]
    by_cases htag : field.Tag.Get "validate" = ""
    · simp only [htag, ne_eq, not_true_eq_false, if_false]
      exact ih _ _ _ _ hn ht
    · simp only [htag, ne_eq, not_false_eq_true, if_true]
      generalize (if field.Tag.Get "yaml" = "" then field.Name else field.Tag.Get "yaml") = name
      cases fieldMap name with
      | none =>
        simp only []
        split
        · cases derefNode m.nodes node with
          | error p => rfl
          | ok root => exact ih _ _ _ _ hn ht
        · exact ih _ _ _ _ hn ht
      | some childNode =>
        simp only []
        generalize (if isYAMLValueType field.Typ = true then
          readValue m.target { index := i, unwrap := isYAMLValueType field.Typ }
          else Except.ok Value.invalid) = unwrapped
        cases unwrapped with
        | error p => rfl
        | ok v =>
          simp only []
          have hsame := applyValidationRulesRun_agree validators hreg
            { index := i, unwrap := isYAMLValueType field.Typ } name childNode
            (parseTag (field.Tag.Get "validate")) [] m m3 hn ht
          cases hr : applyValidationRulesRun validators
              { index := i, unwrap := isYAMLValueType field.Typ } name childNode
              (parseTag (field.Tag.Get "validate")) [] m with
          | error p =>
            rw [hr] at hsame
            cases hr3 : applyValidationRulesRun validators
                { index := i, unwrap := isYAMLValueType field.Typ } name childNode
                (parseTag (field.Tag.Get "validate")) [] m3 with
            | error p3 =>
              rw [hr3] at hsame
              simp only [Except.map, Except.error.injEq] at hsame
              subst hsame
              rfl
            | ok r3 =>
              rw [hr3] at hsame
              simp [Except.map] at hsame
          | ok r =>
            obtain ⟨errs, m1⟩ := r
            rw [hr] at hsame
            cases hr3 : applyValidationRulesRun validators
                { index := i, unwrap := isYAMLValueType field.Typ } name childNode
                (parseTag (field.Tag.Get "validate")) [] m3 with
            | error p3 =>
              rw [hr3] at hsame
              simp [Except.map] at hsame
            | ok r3 =>
              obtain ⟨errs3, m4⟩ := r3
              rw [hr3] at hsame
              simp only [Except.map, Except.ok.injEq] at hsame
              subst hsame
              have h1 := applyValidationRulesRun_frame validators hreg _ _ _ _ _ _ _ _ hr
              have h4 := applyValidationRulesRun_frame validators hreg _ _ _ _ _ _ _ _ hr3
              simp only []
              exact ih _ _ _ _ (by rw [h4.1, h1.1, hn]) (by rw [h4.2, h1.2, ht])

theorem ValidateStructRun_frame (validators : RegistryM)
    (hreg : ∀ name validator, validators name = some validator → ReadOnly validator)
    (isYAMLValueType : GoType → Bool) (out : TargetType) (node : Addr)
    (errs : List GoError) (m m2 : Memory)
    (h : ValidateStructRun validators isYAMLValueType out node m = .ok (errs, m2)) :
    m2.nodes = m.nodes ∧ m2.target = m.target := by
  unfold ValidateStructRun at h
  split at h
  · cases h
  · simp only [Except.ok.injEq, Prod.mk.injEq] at h
    obtain ⟨_, rfl⟩ := h
    exact ⟨rfl, rfl⟩
  · split at h
    · cases h
    · exact validateFieldsRun_frame validators hreg _ _ _ _ _ _ _ _ _ h

theorem ValidateStructRun_agree (validators : RegistryM)
    (hreg : ∀ name validator, validators name = some validator → ReadOnly validator)
    (isYAMLValueType : GoType → Bool) (out : TargetType) (node : Addr) (m m3 : Memory)
    (hn : m3.nodes = m.nodes) (ht : m3.target = m.target) :
    (ValidateStructRun validators isYAMLValueType out node m3).map Prod.fst =
      (ValidateStructRun validators isYAMLValueType out node m).map Prod.fst := by
  unfold ValidateStructRun
  cases out with
  | invalid => rfl
  | other t => rfl
  | struct t fields =>
    simp only [hn]
    cases buildFieldMapM m.nodes node with
    | error p => rfl
    | ok fieldMap =>
      exact validateFieldsRun_agree validators hreg _ _ _ _ _ _ _ _ hn ht

theorem validateRequiredM_readOnly : ReadOnly validateRequiredM := by
  intro m value yamlTag node param
  constructor
  · intro r m2 h
    simp only [validateRequiredM] at h
    split at h
    · cases h
    · split at h
      · split at h
        · cases h
        · cases h
          rfl
      · cases h
        rfl
  · intro m3 hn ht
    simp only [validateRequiredM, hn, ht]
    cases readValue m.target value with
    | error p => rfl
    | ok v =>
      simp only []
      split
      · cases derefNode m.nodes node <;> rfl
      · rfl

theorem validateGreaterThanM_readOnly : ReadOnly validateGreaterThanM := by
  intro m value yamlTag node param
  constructor
  · intro r m2 h
    simp only [validateGreaterThanM] at h
    split at h
    · cases h
      rfl
    · split at h
      · cases h
      · split at h
        · cases h
        · split at h
          · split at h
            · cases h
            · cases h
              rfl
          · cases h
            rfl
  · intro m3 hn ht
    simp only [validateGreaterThanM, hn, ht]
    cases Atoi param with
    | error e => rfl
    | ok threshold =>
      simp only []
      cases readValue m.target value with
      | error p => rfl
      | ok v =>
        simp only []
        cases v.Int with
        | error p => rfl
        | ok i =>
          simp only []
          split
          · cases derefNode m.nodes node <;> rfl
          · rfl

theorem validateDatetimeM_readOnly (timeParse : String → String → Bool) :
    ReadOnly (validateDatetimeM timeParse) := by
  intro m value yamlTag node param
  constructor
  · intro r m2 h
    simp only [validateDatetimeM] at h
    split at h
    · cases h
    · split at h
      · split at h
        · cases h
        · cases h
          rfl
      · cases h
        rfl
  · intro m3 hn ht
    simp only [validateDatetimeM, hn, ht]
    cases readValue m.target value with
    | error p => rfl
    | ok v =>
      simp only []
      split
      · cases derefNode m.nodes node <;> rfl
      · rfl

theorem initM_readOnly (timeParse : String → String → Bool) (name : String)
    (validator : ValidatorM) (h : initM timeParse name = some validator) :
    ReadOnly validator := by
  simp only [initM, RegisterValidatorM] at h
  split at h
  · cases h
    exact validateDatetimeM_readOnly timeParse
  · split at h
    · cases h
      exact validateGreaterThanM_readOnly
    · split at h
      · cases h
        exact validateRequiredM_readOnly
      · cases h

/-- C13, counterexample: a call changes the node when a registered validator
writes through the node pointer it is handed. With the validator `fillNodeM`
registered under `fill`, the call on the field `Name` tagged `fill=unknown`
with the document `name: ""` returns one error and leaves `unknown` in the
value node, which held the empty string before; the second call, in the memory
left by the first, returns no error. Likewise for the target, when its fields
can be set: with `setDefaultM` registered under `default`, the call on the
field `Age` tagged `gt=18,default=20` with the document `age: 0` returns the
threshold error and leaves 20 in the field, which held 0 before, and the second
call returns no error. The registry is the same in both calls. -/
theorem ValidateStructRun_writing_validator :
    (memoryEmptyName.nodes 2).map NodeCell.Value = some "" ∧
    (ValidateStructRun registryWithFill (fun _ => false) nameWithFill 0 memoryEmptyName).map
        (fun r => (r.1, (r.2.nodes 2).map NodeCell.Value)) =
      .ok ([.CustomError 1 7 "field 'name' was empty"], some "unknown") ∧
    (ValidateStructRun registryWithFill (fun _ => false) nameWithFill 0 memoryEmptyName).bind
        (fun r =>
          (ValidateStructRun registryWithFill (fun _ => false) nameWithFill 0 r.2).map
            Prod.fst) =
      .ok [] ∧
    memoryZero.target.map Value.Int = [.ok 0] ∧
    (ValidateStructRun registryWithDefault (fun _ => false) ageWithDefault 0 memoryZero).map
        (fun r => (r.1, r.2.target.map Value.Int)) =
      .ok ([.CustomError 1 6 "field 'age' must be greater than 18"], [.ok 20]) ∧
    (ValidateStructRun registryWithDefault (fun _ => false) ageWithDefault 0 memoryZero).bind
        (fun r =>
          (ValidateStructRun registryWithDefault (fun _ => false) ageWithDefault 0 r.2).map
            Prod.fst) =
      .ok [] := by
  simp only [ValidateStructRun, ageWithDefault, nameWithFill, buildFieldMapM,
    fieldMapLoopM_eq_foldlM]
  decide

/-! ### The call on memory and the function on values -/

theorem pairs_forall₂ (nodes : Addr → Option NodeCell) (addrs : List Addr) (ns : List Node)
    (h : List.Forall₂ (cellOf nodes) addrs ns) :
    List.Forall₂ (fun (p : Addr × Addr) (q : Node × Node) =>
      cellOf nodes p.1 q.1 ∧ cellOf nodes p.2 q.2) (addrPairs addrs) (contentPairs ns) := by
  induction addrs using addrPairs.induct generalizing ns with
  | case1 k v rest ih =>
    cases h with
    | cons hk htail =>
      cases htail with
      | cons hv hrest =>
        simp only [addrPairs, contentPairs]
        exact List.Forall₂.cons ⟨hk, hv⟩ (ih _ hrest)
  | case2 l hno =>
    match l, hno, h with
    | [], _, h =>
      cases h
      exact List.Forall₂.nil
    | [a], _, h =>
      cases h with
      | cons ha htail =>
        cases htail
        exact List.Forall₂.nil
    | a :: b :: rest, hno, _ => exact absurd rfl (hno a b rest)

theorem foldlM_stands_for (nodes : Addr → Option NodeCell) (ps : List (Addr × Addr))
    (qs : List (Node × Node))
    (h : List.Forall₂ (fun (p : Addr × Addr) (q : Node × Node) =>
      cellOf nodes p.1 q.1 ∧ cellOf nodes p.2 q.2) ps qs)
    (fieldMapM : FieldMapM) (fieldMap : FieldMap)
    (hfm : lookupStandsFor nodes fieldMapM fieldMap) :
    ∃ result, ps.foldlM (lookupStepM nodes) fieldMapM = .ok result ∧
      lookupStandsFor nodes result (qs.foldl FieldMap.addPair fieldMap) := by
  induction h generalizing fieldMapM fieldMap with
  | nil => exact ⟨fieldMapM, rfl, hfm⟩
  | @cons p q ps qs hpq _ ih =>
    obtain ⟨⟨cell, hcell, hkind, _, _, hvalue⟩, hsecond⟩ := hpq
    have hstep : lookupStepM nodes fieldMapM p =
        .ok (if cell.Kind = NodeKind.ScalarNode then
          (fun k => if k = cell.Value then some p.2 else fieldMapM k) else fieldMapM) := by
      simp [lookupStepM, derefNode, hcell]
    rw [List.foldlM_cons, hstep, List.foldl_cons]
    simp only [bind, Except.bind]
    apply ih
    intro key
    unfold FieldMap.addPair FieldMap.set
    rw [← hkind, ← hvalue]
    by_cases hs : cell.Kind = NodeKind.ScalarNode
    · simp only [hs, if_true]
      by_cases hk : key = cell.Value
      · rw [if_pos hk, if_pos hk]
        refine ⟨fun h0 => ?_, fun n hn => ⟨p.2, rfl, ?_⟩⟩
        · cases h0
        · cases hn
          exact hsecond
      · rw [if_neg hk, if_neg hk]
        exact hfm key
    · simp only [hs, if_false]
      exact hfm key

theorem buildFieldMapM_stands_for (nodes : Addr → Option NodeCell) (a : Addr) (node : Node)
    (hrep : represents nodes a node) :
    ∃ fieldMapM, buildFieldMapM nodes a = .ok fieldMapM ∧
      lookupStandsFor nodes fieldMapM (fieldLookup node) := by
  obtain ⟨cell, hcell, hkind, _, _, _, hcontent⟩ := hrep
  have hempty : lookupStandsFor nodes (fun _ => none) (fun _ => none) :=
    fun key => ⟨fun _ => rfl, fun n hn => by cases hn⟩
  by_cases hm : node.Kind = NodeKind.MappingNode
  · have hcm : cell.Kind = NodeKind.MappingNode := hkind.trans hm
    obtain ⟨result, hres, hstands⟩ := foldlM_stands_for nodes _ _
      (pairs_forall₂ nodes _ _ hcontent) (fun _ => none) (fun _ => none) hempty
    refine ⟨result, ?_, ?_⟩
    · simp only [buildFieldMapM, derefNode, hcell, hcm, if_true, fieldMapLoopM_eq_foldlM,
        List.drop_zero]
      exact hres
    · rw [fieldLookup_mapping node hm]
      exact hstands
  · have hcm : ¬ cell.Kind = NodeKind.MappingNode := fun h => hm (hkind.symm.trans h)
    refine ⟨fun _ => none, ?_, ?_⟩
    · simp [buildFieldMapM, derefNode, hcell, hcm]
    · have hnone : fieldLookup node = fun _ => none := by
        funext key
        simp [fieldLookup, buildFieldMap, hm]
      rw [hnone]
      exact hempty

theorem validateRequiredM_actsAs : actsAs validateRequiredM validateRequired := by
  intro m ref yamlTag a param value n hcell hread
  obtain ⟨cell, hc, _, hline, hcol, _⟩ := hcell
  simp only [validateRequiredM, validateRequired, hread, derefNode, hc, hline, hcol]
  split <;> rfl

theorem validateGreaterThanM_actsAs : actsAs validateGreaterThanM validateGreaterThan := by
  intro m ref yamlTag a param value n hcell hread
  obtain ⟨cell, hc, _, hline, hcol, _⟩ := hcell
  simp only [validateGreaterThanM, validateGreaterThan, hread, derefNode, hc, hline, hcol]
  cases Atoi param with
  | error e => rfl
  | ok threshold =>
    simp only []
    cases value.Int with
    | error p => rfl
    | ok i =>
      simp only []
      split <;> rfl

theorem validateDatetimeM_actsAs (timeParse : String → String → Bool) :
    actsAs (validateDatetimeM timeParse) (validateDatetime timeParse) := by
  intro m ref yamlTag a param value n hcell hread
  obtain ⟨cell, hc, _, hline, hcol, _⟩ := hcell
  simp only [validateDatetimeM, validateDatetime, hread, derefNode, hc, hline, hcol]
  split <;> rfl

theorem initM_actsAs (timeParse : String → String → Bool) :
    registryActsAs (initM timeParse) (init timeParse) := by
  intro name
  simp only [initM, init, RegisterValidatorM, RegisterValidator]
  by_cases h1 : name = "datetime"
  · exact Or.inr ⟨_, _, if_pos h1, if_pos h1, validateDatetimeM_actsAs timeParse⟩
  · by_cases h2 : name = "gt"
    · refine Or.inr ⟨_, _, ?_, ?_, validateGreaterThanM_actsAs⟩
      · rw [if_neg h1, if_pos h2]
      · rw [if_neg h1, if_pos h2]
    · by_cases h3 : name = "required"
      · refine Or.inr ⟨_, _, ?_, ?_, validateRequiredM_actsAs⟩
        · rw [if_neg h1, if_neg h2, if_pos h3]
        · rw [if_neg h1, if_neg h2, if_pos h3]
      · refine Or.inl ⟨?_, ?_⟩
        · rw [if_neg h1, if_neg h2, if_neg h3]
        · rw [if_neg h1, if_neg h2, if_neg h3]

theorem applyValidationRulesRun_runsAs (validatorsM : RegistryM) (validators : Registry)
    (hreg : registryActsAs validatorsM validators) (ref : ValueRef)
    (yamlTag : String) (a : Addr) (value : Value) (n : Node) (rules : List validationRule)
    (errors : List GoError) (m : Memory) (hcell : cellOf m.nodes a n)
    (hread : readValue m.target ref = .ok value) :
    runsAs (applyValidationRulesLoop validators value yamlTag n rules errors)
      (applyValidationRulesRun validatorsM ref yamlTag a rules errors m) m := by
  induction rules generalizing errors m with
  | nil => exact ⟨m.stdout, rfl⟩
  | cons rule rest ih =>
    simp only [applyValidationRulesLoop, applyValidationRulesRun]
    rcases hreg rule.name with ⟨hM, hP⟩ | ⟨validatorM, validator, hM, hP, hact⟩
    · rw [hM, hP]
      simp only []
      have hrest := ih errors
        { m with stdout := m.stdout ++ ["Validator not found for:  " ++ rule.name] }
        hcell hread
      exact hrest
    · rw [hM, hP]
      simp only []
      rw [hact m ref yamlTag a (firstParam rule) value n hcell hread]
      cases validator value yamlTag n (firstParam rule) with
      | error p => rfl
      | ok r =>
        cases r with
        | none => exact ih errors m hcell hread
        | some e => exact ih (errors ++ [e]) m hcell hread

theorem validateFieldsRun_runsAs (validatorsM : RegistryM) (validators : Registry)
    (hreg : registryActsAs validatorsM validators)
    (isYAMLValueType : GoType → Bool) (a : Addr) (node : Node) (fieldMapM : FieldMapM)
    (fieldMap : FieldMap) (all : List (StructField × Value))
    (rest : List (StructField × Value)) (i : Nat) (errors : List GoError) (m : Memory)
    (hrep : represents m.nodes a node) (hstands : lookupStandsFor m.nodes fieldMapM fieldMap)
    (htarget : m.target = all.map Prod.snd) (hdrop : all.drop i = rest) :
    runsAs
      (validateFieldsLoop { validators := validators, isYAMLValueType := isYAMLValueType } node
        fieldMap rest errors)
      (validateFieldsRun validatorsM isYAMLValueType a fieldMapM (rest.map Prod.fst) i
        errors m) m := by
  induction rest generalizing i errors m with
  | nil => exact ⟨m.stdout, rfl⟩
  | cons f rest ih =>
    obtain ⟨field, fieldValue⟩ := f
    have hget : m.target[i]? = some fieldValue := by
      rw [htarget, List.getElem?_map]
      have h0 : (all.drop i)[0]? = some (field, fieldValue) := by rw [hdrop]; simp
      rw [List.getElem?_drop] at h0
      simp only [Nat.add_zero] at h0
      rw [h0]
      rfl
    have hnext : all.drop (i + 1) = rest := by
      have h1 : (all.drop i).drop 1 = rest := by rw [hdrop]; rfl
      rw [List.drop_drop] at h1
      exact h1
    simp only [validateFieldsLoop, validateFieldsRun, List.map_cons]
    by_cases htag : field.Tag.Get "validate" = ""
    · simp only [htag, ne_eq, not_true_eq_false, if_false]
      exact ih (i + 1) errors m hrep hstands htarget hnext
    · simp only [htag, ne_eq, not_false_eq_true, if_true]
      generalize (if field.Tag.Get "yaml" = "" then field.Name else field.Tag.Get "yaml") = name
      cases hl : fieldMap name with
      | none =>
        rw [(hstands name).1 hl]
        simp only []
        obtain ⟨cell, hcell, hkind, hline, hcol, hval, hcontent⟩ := hrep
        split
        · simp only [derefNode, hcell, missingError, hline, hcol]
          exact ih (i + 1) _ m ⟨cell, hcell, hkind, hline, hcol, hval, hcontent⟩ hstands
            htarget hnext
        · exact ih (i + 1) errors m ⟨cell, hcell, hkind, hline, hcol, hval, hcontent⟩ hstands
            htarget hnext
      | some childNode =>
        obtain ⟨childAddr, hchild, hcellOf⟩ := (hstands name).2 childNode hl
        rw [hchild]
        simp only []
        by_cases hy : isYAMLValueType field.Typ = true
        · simp only [hy, if_true, readValue, hget]
          cases hu : fieldValue.FieldByName "Value" with
          | error p => rfl
          | ok value =>
            simp only [applyValidationRules]
            have hrules := applyValidationRulesRun_runsAs validatorsM validators hreg
              { index := i, unwrap := true } name childAddr value childNode
              (parseTag (field.Tag.Get "validate")) [] m hcellOf
              (by simp [readValue, hget, hu])
            unfold runsAs at hrules ⊢
            cases hp : applyValidationRulesLoop validators value name childNode
                (parseTag (field.Tag.Get "validate")) [] with
            | error p =>
              rw [hp] at hrules
              simp only [] at hrules ⊢
              rw [hrules]
            | ok errs =>
              rw [hp] at hrules
              simp only [] at hrules ⊢
              obtain ⟨so, hso⟩ := hrules
              rw [hso]
              simp only []
              have hrest := ih (i + 1) (errors ++ errs) { m with stdout := so } hrep hstands
                htarget hnext
              unfold runsAs at hrest
              exact hrest
        · have hyf : isYAMLValueType field.Typ = false := by
            cases h : isYAMLValueType field.Typ
            · rfl
            · exact absurd h hy
          simp only [hyf, Bool.false_eq_true, if_false]
          simp only [applyValidationRules]
          have hrules := applyValidationRulesRun_runsAs validatorsM validators hreg
            { index := i, unwrap := false } name childAddr fieldValue childNode
            (parseTag (field.Tag.Get "validate")) [] m hcellOf
            (by simp [readValue, hget])
          unfold runsAs at hrules ⊢
          cases hp : applyValidationRulesLoop validators fieldValue name childNode
              (parseTag (field.Tag.Get "validate")) [] with
          | error p =>
            rw [hp] at hrules
            simp only [] at hrules ⊢
            rw [hrules]
          | ok errs =>
            rw [hp] at hrules
            simp only [] at hrules ⊢
            obtain ⟨so, hso⟩ := hrules
            rw [hso]
            simp only []
            have hrest := ih (i + 1) (errors ++ errs) { m with stdout := so } hrep hstands
              htarget hnext
            unfold runsAs at hrest
            exact hrest

theorem ValidateStructRun_runsAs (validatorsM : RegistryM) (validators : Registry)
    (hreg : registryActsAs validatorsM validators) (isYAMLValueType : GoType → Bool)
    (t : GoType) (fields : List (StructField × Value)) (a : Addr) (node : Node) (m : Memory)
    (hrep : represents m.nodes a node) (htarget : m.target = fields.map Prod.snd) :
    runsAs
      (ValidateStruct { validators := validators, isYAMLValueType := isYAMLValueType }
        (.struct t fields) node)
      (ValidateStructRun validatorsM isYAMLValueType (.struct t (fields.map Prod.fst)) a m)
      m := by
  obtain ⟨fieldMapM, hbuild, hstands⟩ := buildFieldMapM_stands_for m.nodes a node hrep
  rw [ValidateStruct_struct]
  simp only [ValidateStructRun, hbuild]
  exact validateFieldsRun_runsAs validatorsM validators hreg isYAMLValueType a node fieldMapM
    (fieldLookup node) fields fields 0 [] m hrep hstands htarget rfl

theorem runsAs_fst (pure : Go (List GoError)) (run : Go (List GoError × Memory)) (m : Memory)
    (h : runsAs pure run m) :
    run.map Prod.fst = pure ∧
    ∀ errs m2, run = .ok (errs, m2) → m2.nodes = m.nodes ∧ m2.target = m.target := by
  unfold runsAs at h
  cases pure with
  | error p =>
    simp only [] at h
    rw [h]
    exact ⟨rfl, fun errs m2 h2 => by cases h2⟩
  | ok e =>
    simp only [] at h
    obtain ⟨so, hso⟩ := h
    rw [hso]
    refine ⟨rfl, fun errs m2 h2 => ?_⟩
    cases h2
    exact ⟨rfl, rfl⟩

theorem memoryTest_represents : represents memoryTest.nodes 0 document2 :=
  ⟨_, rfl, rfl, rfl, rfl, rfl,
    List.Forall₂.cons ⟨_, rfl, rfl, rfl, rfl, rfl⟩
    (List.Forall₂.cons ⟨_, rfl, rfl, rfl, rfl, rfl⟩
    (List.Forall₂.cons ⟨_, rfl, rfl, rfl, rfl, rfl⟩
    (List.Forall₂.cons ⟨_, rfl, rfl, rfl, rfl, rfl⟩
    (List.Forall₂.cons ⟨_, rfl, rfl, rfl, rfl, rfl⟩
    (List.Forall₂.cons ⟨_, rfl, rfl, rfl, rfl, rfl⟩ List.Forall₂.nil)))))⟩

/-- C13, amended: for a registry whose validators only read (each returns the
memory it was given, and its result is the same in any two memories with the
same nodes and target), a call of `ValidateStruct` leaves the nodes and the
target as they were; a second call in the memory left by the first returns the
same error sequence, and so does a call in any memory with the same nodes and
target, whatever has been written to the standard output: the result depends
only on the target, the nodes and the registry. When moreover each registered
validator does what a function of the value and the node does, the errors
returned are those of `ValidateStruct` as a function of the struct value and
the node that the memory holds. The three validators of `init` only read and
are such functions. -/
theorem ValidateStructRun_read_only (validators : RegistryM)
    (hreg : ∀ name validator, validators name = some validator → ReadOnly validator)
    (isYAMLValueType : GoType → Bool) (out : TargetType) (node : Addr) (m : Memory) :
    (∀ (errs : List GoError) (m2 : Memory),
      ValidateStructRun validators isYAMLValueType out node m = .ok (errs, m2) →
      m2.nodes = m.nodes ∧ m2.target = m.target ∧
      (ValidateStructRun validators isYAMLValueType out node m2).map Prod.fst = .ok errs) ∧
    (∀ m3 : Memory, m3.nodes = m.nodes → m3.target = m.target →
      (ValidateStructRun validators isYAMLValueType out node m3).map Prod.fst =
        (ValidateStructRun validators isYAMLValueType out node m).map Prod.fst) ∧
    (∀ (registry : Registry) (t : GoType) (fields : List (StructField × Value)) (n : Node),
      registryActsAs validators registry → out = .struct t (fields.map Prod.fst) →
      represents m.nodes node n → m.target = fields.map Prod.snd →
      (ValidateStructRun validators isYAMLValueType out node m).map Prod.fst =
        ValidateStruct { validators := registry, isYAMLValueType := isYAMLValueType }
          (.struct t fields) n) ∧
    (∀ timeParse : String → String → Bool,
      (∀ name validator, initM timeParse name = some validator → ReadOnly validator) ∧
      registryActsAs (initM timeParse) (init timeParse)) := by
  refine ⟨?_, ?_, ?_, fun timeParse => ⟨initM_readOnly timeParse, initM_actsAs timeParse⟩⟩
  · intro errs m2 h
    obtain ⟨h1, h2⟩ := ValidateStructRun_frame validators hreg isYAMLValueType out node errs m m2 h
    refine ⟨h1, h2, ?_⟩
    rw [ValidateStructRun_agree validators hreg isYAMLValueType out node m m2 h1 h2, h]
    rfl
  · intro m3 hn ht
    exact ValidateStructRun_agree validators hreg isYAMLValueType out node m m3 hn ht
  · intro registry t fields n hacts hout hrep htarget
    rw [hout]
    exact (runsAs_fst _ _ m (ValidateStructRun_runsAs validators registry hacts isYAMLValueType
      t fields node n m hrep htarget)).1

/-- Witness of C13, amended: the registry of `init` on the memory of the second
test document. The first call returns the two errors of the test and writes the
notice for `email`; the nodes and the target are as before, and the second call
returns the same two errors; the errors are those of `ValidateStruct` on the
`Person` value and the mapping node of the second test document. -/
theorem ValidateStructRun_read_only_witness :
    (∀ name validator, initM sampleTimeParse name = some validator → ReadOnly validator) ∧
    (ValidateStructRun (initM sampleTimeParse) (fun _ => false) personType 0 memoryTest).map
        (fun r => (r.1, r.2.stdout)) =
      .ok ([.CustomError 2 1 "required field 'name' is missing",
            .CustomError 2 6 "field 'age' must be greater than 18"],
           ["Validator not found for:  email"]) ∧
    (∀ (errs : List GoError) (m2 : Memory),
      ValidateStructRun (initM sampleTimeParse) (fun _ => false) personType 0 memoryTest =
        .ok (errs, m2) →
      m2.nodes = memoryTest.nodes ∧ m2.target = memoryTest.target ∧
      (ValidateStructRun (initM sampleTimeParse) (fun _ => false) personType 0 m2).map
        Prod.fst = .ok errs) ∧
    represents memoryTest.nodes 0 document2 ∧
    (ValidateStructRun (initM sampleTimeParse) (fun _ => false) personType 0 memoryTest).map
        Prod.fst =
      ValidateStruct testEnv (person "" 16 "2023-06-21T15:00:00Z" "john.doe@example.com")
        document2 :=
  ⟨initM_readOnly sampleTimeParse,
   by
    simp only [ValidateStructRun, personType, buildFieldMapM, fieldMapLoopM_eq_foldlM]
    decide,
   (ValidateStructRun_read_only (initM sampleTimeParse) (initM_readOnly sampleTimeParse)
      (fun _ => false) personType 0 memoryTest).1,
   memoryTest_represents,
   (ValidateStructRun_read_only (initM sampleTimeParse) (initM_readOnly sampleTimeParse)
      (fun _ => false) personType 0 memoryTest).2.2.1 (init sampleTimeParse)
      { Name := "yaml_test.Person" }
      [(personName, .str { Name := "string" } ""),
       (personAge, .int { Name := "int" } 16),
       (personCreatedAt, .str { Name := "string" } "2023-06-21T15:00:00Z"),
       (personEmail, .str { Name := "string" } "john.doe@example.com")]
      document2 (initM_actsAs sampleTimeParse) rfl memoryTest_represents rfl⟩

end YamlValidate
